import Mathlib

/-! # PicoDrum: capture-and-classify pipeline

A shallow embedding of the burst analyzer (`process_samples`, `remap`), the
capture engine entry points (`adc_start_func`, `adc_stop_func`, `adc_task`) of
`src/adc.c`, and of the edge-triggered gate (`gpio_callback`) together with the
dispatcher loop of `src/main.c`.

* Machine integers are natural numbers with explicit reduction modulo `2^32`
  (or `256`) wherever the C code stores into a `uint32_t` (`uint8_t`).
* `float` and `double` values are the rationals they denote.  Every arithmetic
  operation is followed by IEEE-754 round-to-nearest, ties-to-even, to 24 resp.
  53 significant bits (`f32`, `f64`).  All quantities of the program stay far
  inside the normal exponent range of both formats (magnitudes between `2^-32`
  and `2^32`), so no overflow, underflow or subnormal can occur and the exponent
  is left unbounded.  A division by zero, whose IEEE result is not a finite
  number, is the failure value `none`.
* Values read from hardware (the millisecond clock, the remaining transfer
  count of the DMA channel, the edge bitmask) are inputs of the step functions.
* Calls that leave the modelled program (`adc_start_func` and `adc_stop_func`
  reaching the DMA engine, `send_midi`) are recorded as a list of `Act`.
-/

namespace PicoDrum

/-! ## Floating point -/

/-- Auxiliary for `ilog2`: halve `n` until it is below 2, at most `fuel` times. -/
def ilog2_aux : ℕ → ℕ → ℕ
  | 0, _ => 0
  | fuel + 1, n => if n < 2 then 0 else ilog2_aux fuel (n / 2) + 1

/-- Floor of the binary logarithm of a positive natural number. -/
def ilog2 (n : ℕ) : ℕ := ilog2_aux n n

/-- Binary exponent of a non-zero rational: the `e` with `2^e ≤ |q| < 2^(e+1)`. -/
def expo (q : ℚ) : ℤ :=
  let n := q.num.natAbs
  let d := q.den
  if d ≤ n then ((ilog2 (n / d) : ℕ) : ℤ)
  else -((ilog2 ((d - 1) / n) + 1 : ℕ) : ℤ)

/-- Round to the nearest integer, ties to the even one. -/
def roundNE (q : ℚ) : ℤ :=
  let f := ⌊q⌋
  let r := q - f
  if r < 1/2 then f else if 1/2 < r then f + 1 else if f % 2 = 0 then f else f + 1

/-- Round a rational to the nearest binary floating-point number with `p`
significant bits (round-to-nearest, ties-to-even, unbounded exponent). -/
def fround (p : ℕ) (q : ℚ) : ℚ :=
  if q = 0 then 0 else
    let u : ℚ := (2:ℚ) ^ (expo q - ((p:ℤ) - 1))
    (roundNE (q / u) : ℚ) * u

/-- Rounding to C `float` (IEEE binary32, 24 significant bits). -/
def f32 (q : ℚ) : ℚ := fround 24 q

/-- Rounding to C `double` (IEEE binary64, 53 significant bits). -/
def f64 (q : ℚ) : ℚ := fround 53 q

/-- The `float` division `a / b`; `none` when the divisor is zero. -/
def fdiv32 (a b : ℚ) : Option ℚ := if b = 0 then none else some (f32 (a / b))

/-- The `double` literal `0.2`. -/
def lit_0_2 : ℚ := f64 (1/5)

/-- Conversion of a floating value to an integer: truncation toward zero. -/
def trunc (d : ℚ) : ℤ := if 0 ≤ d then ⌊d⌋ else ⌈d⌉

/-- The cast `(uint8_t)d` of a `double`: truncate, then keep the low 8 bits. -/
def to_uint8 (d : ℚ) : ℕ := (trunc d % 256).toNat

/-! ## `src/adc.c`: velocity curve and burst analyzer -/

/-- `#define CAPTURE_DEPTH 8192`. -/
def CAPTURE_DEPTH : ℕ := 8192

/-- The `double` expression `1 + (float)(x - 20.0) * 116.0 / 100.0` of `remap`,
before the cast to `uint8_t`. -/
def remap_expr (x : ℚ) : ℚ :=
  f64 (1 + f64 (f64 (f32 (f64 (x - 20)) * 116) / 100))

/-- `uint8_t remap(float x)`. -/
def remap (x : ℚ) : ℕ :=
  if x ≤ 20 then 1
  else if x ≥ 110 then 127
  else to_uint8 (remap_expr x)

/-- A sample memory: the byte stored at each index (`const uint8_t *buf`). -/
abbrev Buf := ℕ → Fin 256

/-- The local variables of the loop of `process_samples`; `reads` lists the
indices of `buf` read so far, oldest first. -/
structure Scan where
  sum : ℕ
  count : ℕ
  max_sample : ℕ
  reads : List ℕ
  deriving DecidableEq

/-- One iteration of the `for` loop of `process_samples`, at index `i`. -/
def scan_step (buf : Buf) (a : Scan) (i : ℕ) : Scan :=
  let s : ℕ := (buf i).val
  if s ≤ 1 then { a with reads := a.reads ++ [i] }
  else
    { sum := (a.sum + s) % 2 ^ 32
      count := (a.count + 1) % 2 ^ 32
      max_sample := if s > a.max_sample then s else a.max_sample
      reads := a.reads ++ [i] }

/-- The loop `for (i = 0; i < n; ++i)` of `process_samples`: the state after `n`
iterations. -/
def scan (buf : Buf) : ℕ → Scan
  | 0 => { sum := 0, count := 0, max_sample := 0, reads := [] }
  | i + 1 => scan_step buf (scan buf i) i

/-- Calls that leave the modelled program. -/
inductive Act
  | start
  | stop
  | midi (vel : ℕ)
  deriving DecidableEq

/-- Everything `process_samples` computes: the loop result, the intermediate
floating values, the velocity and the calls of `send_midi`. -/
structure Analysis where
  reads : List ℕ
  sum : ℕ
  count : ℕ
  avg : ℚ
  peak : ℕ
  avg_of_all : ℚ
  vel : ℕ
  acts : List Act

/-- The expression `(count > 0) ? (float)sum / (float)count : 0.0f`. -/
def avg_expr (sum count : ℕ) : Option ℚ :=
  if count > 0 then fdiv32 (f32 sum) (f32 count) else some 0

/-- The expression `(((float)avg*0.2 + (float)peak))/2.0`, evaluated in `double`
and stored into the `float` variable `avg_of_all`. -/
def avg_of_all_expr (avg : ℚ) (peak : ℕ) : ℚ :=
  f32 (f64 (f64 (f64 (avg * lit_0_2) + peak) / 2))

/-- `void process_samples(const uint8_t *buf, uint32_t n)`. -/
def process_samples (buf : Buf) (n : ℕ) : Option Analysis :=
  let a := scan buf n
  (avg_expr a.sum a.count).map fun avg =>
    let peak := a.max_sample
    let avg_of_all := avg_of_all_expr avg peak
    let vel := remap avg_of_all
    { reads := a.reads
      sum := a.sum
      count := a.count
      avg := avg
      peak := peak
      avg_of_all := avg_of_all
      vel := vel
      acts := if vel > 2 then [Act.midi vel] else [] }

/-! ## Program state shared by `src/adc.c` and `src/main.c` -/

/-- The global variables of the program. -/
structure Sys where
  capture_buf : Buf
  samples_captured : ℕ
  capture_done : Bool
  last_edge_time : ℕ
  adc_gated : Bool
  high_pulse : Bool
  test_pin : Bool

/-- Subtraction of two `uint32_t` values. -/
def u32_sub (a b : ℕ) : ℕ := (a % 2 ^ 32 + 2 ^ 32 - b % 2 ^ 32) % 2 ^ 32

/-- `void adc_start_func()`: flushes the FIFO and re-arms the DMA channel; it
writes no program variable. -/
def adc_start_func (s : Sys) : Sys × List Act := (s, [Act.start])

/-- `void adc_stop_func(void)`; `remaining` is the value read from the
`transfer_count` register of the DMA channel. -/
def adc_stop_func (remaining : ℕ) (s : Sys) : Sys × List Act :=
  ({ s with samples_captured := u32_sub CAPTURE_DEPTH remaining, capture_done := true },
    [Act.stop])

/-- `void adc_task(void)`. -/
def adc_task (s : Sys) : Option (Sys × List Act) :=
  if s.capture_done then
    (process_samples s.capture_buf s.samples_captured).map fun r =>
      ({ s with capture_done := false }, r.acts)
  else some (s, [])

/-! ## `src/main.c`: gate and dispatcher -/

/-- Event bit of a falling edge (`GPIO_IRQ_EDGE_FALL = 0x4` in the Pico SDK
header `hardware/gpio.h`, which is not part of the repository). -/
def GPIO_IRQ_EDGE_FALL : ℕ := 4

/-- Event bit of a rising edge (`GPIO_IRQ_EDGE_RISE = 0x8` in the Pico SDK
header `hardware/gpio.h`, which is not part of the repository). -/
def GPIO_IRQ_EDGE_RISE : ℕ := 8

/-- The `if (events & GPIO_IRQ_EDGE_RISE)` block of `gpio_callback`. -/
def on_rise (now remaining : ℕ) (s : Sys) : Sys × List Act :=
  if !s.adc_gated && s.high_pulse then
    let r := adc_stop_func remaining s
    ({ r.1 with test_pin := false, adc_gated := true, last_edge_time := now % 2 ^ 32,
                high_pulse := false }, r.2)
  else (s, [])

/-- The `if (events & GPIO_IRQ_EDGE_FALL)` block of `gpio_callback`. -/
def on_fall (s : Sys) : Sys × List Act :=
  if !s.adc_gated && !s.high_pulse then
    let r := adc_start_func { s with high_pulse := true }
    ({ r.1 with test_pin := true }, r.2)
  else (s, [])

/-- `void gpio_callback(uint gpio, uint32_t events)`; `now` is what
`board_millis()` returns and `remaining` what the DMA register holds during the
call. -/
def gpio_callback (events now remaining : ℕ) (s : Sys) : Sys × List Act :=
  let r1 := if events &&& GPIO_IRQ_EDGE_RISE ≠ 0 then on_rise now remaining s else (s, [])
  let r2 := if events &&& GPIO_IRQ_EDGE_FALL ≠ 0 then on_fall r1.1 else (r1.1, [])
  (r2.1, r1.2 ++ r2.2)

/-- The lockout check at the end of the `while (1)` body of `main`. -/
def lockout_check (now : ℕ) (s : Sys) : Sys :=
  if s.adc_gated then
    if u32_sub now s.last_edge_time > 30 then { s with adc_gated := false } else s
  else s

/-- One iteration of the `while (1)` loop of `main`: `adc_task()`, then the
lockout check with `board_millis()` returning `now`.  (`tud_task` and
`led_blinking_task` touch none of the modelled variables.) -/
def main_loop (now : ℕ) (s : Sys) : Option (Sys × List Act) :=
  (adc_task s).map fun r => (lockout_check now r.1, r.2)

/-- What can happen to the running program: an edge interrupt, one iteration
of the dispatcher loop, or the DMA engine storing samples so that the capture
memory holds `buf` afterwards. -/
inductive Event
  | edge (events now remaining : ℕ)
  | loop (now : ℕ)
  | dma (buf : Buf)

/-- The effect of one event. -/
def step (s : Sys) : Event → Option (Sys × List Act)
  | Event.edge events now remaining => some (gpio_callback events now remaining s)
  | Event.loop now => main_loop now s
  | Event.dma buf => some ({ s with capture_buf := buf }, [])

/-- The effect of a sequence of events, with all calls made, oldest first. -/
def run (s : Sys) : List Event → Option (Sys × List Act)
  | [] => some (s, [])
  | e :: es =>
    (step s e).bind fun r1 => (run r1.1 es).map fun r2 => (r2.1, r1.2 ++ r2.2)

/-- The variables as initialised at program start, for a given content of the
capture memory. -/
def init (buf : Buf) : Sys :=
  { capture_buf := buf
    samples_captured := 0
    capture_done := false
    last_edge_time := 0
    adc_gated := false
    high_pulse := false
    test_pin := false }

/-! ## Concrete inputs -/

/-- A capture memory in which every byte is 1 (noise level). -/
def silent_buf : Buf := fun _ => 1

/-- Two samples: one hit of value 100 followed by silence. -/
def mono_A : Buf := fun i => if i = 0 then 100 else 0

/-- The same hit followed by a faint qualifying sample of value 2. -/
def mono_B : Buf := fun i => if i = 0 then 100 else 2

/-- A louder hit of value 120 followed by silence. -/
def mono_C : Buf := fun i => if i = 0 then 120 else 0

/-- A capture memory whose bytes alternate 2, 50, 2, 50, ... -/
def alt_buf : Buf := fun i => if i % 2 = 0 then 2 else 50

/-- The program state after a capture of 4096 samples was closed over
`alt_buf`: completion flag set, gate idle and locked out. -/
def alt_sys : Sys :=
  { capture_buf := alt_buf
    samples_captured := 4096
    capture_done := true
    last_edge_time := 0
    adc_gated := true
    high_pulse := false
    test_pin := false }

/-- The program state while a capture is in progress (gate Capturing, no
lockout), over the memory `silent_buf`. -/
def capturing_sys : Sys :=
  { capture_buf := silent_buf
    samples_captured := 0
    capture_done := false
    last_edge_time := 0
    adc_gated := false
    high_pulse := true
    test_pin := true }

/-- An idle, locked-out state with a closed capture pending. -/
def idle_locked_sys : Sys :=
  { capture_buf := silent_buf
    samples_captured := 100
    capture_done := true
    last_edge_time := 7
    adc_gated := true
    high_pulse := false
    test_pin := false }

/-! ## `src/adc.c`: the continuous path (envelope detector, peak mapping) -/

/-- The C type `peakdet_t`: three `uint8_t` fields. -/
structure peakdet_t where
  baseline : ℕ
  envelope : ℕ
  peak : ℕ

/-- Storing an `int` into an `int16_t` variable: reduction into `[-32768, 32767]`. -/
def to_int16 (z : ℤ) : ℤ := (z + 32768) % 65536 - 32768

/-- `void peakdet_init(peakdet_t *pd, uint8_t initial)`. -/
def peakdet_init (initial : ℕ) : peakdet_t :=
  { baseline := initial % 256, envelope := 0, peak := 0 }

/-- `uint8_t peakdet_process(peakdet_t *pd, uint8_t sample)`: the updated
state and the returned value.  Arithmetic is done in `int`; every store into a
`uint8_t` keeps the low 8 bits, every store into `diff` goes through
`to_int16`. -/
def peakdet_process (pd : peakdet_t) (sample : ℕ) : peakdet_t × ℕ :=
  let baseline : ℕ := ((pd.baseline * 15 + sample) >>> 4) % 256
  let diff0 : ℤ := to_int16 ((sample : ℤ) - (baseline : ℤ))
  let diff : ℤ := if diff0 < 0 then to_int16 (-diff0) else diff0
  let level : ℕ := (diff % 256).toNat
  let envelope : ℕ :=
    if level > pd.envelope then level
    else (pd.envelope - (pd.envelope >>> 4)) % 256
  let peak : ℕ := if envelope > pd.peak then envelope else pd.peak
  ({ baseline := baseline, envelope := envelope, peak := peak }, peak)

/-- `void peakdet_reset(peakdet_t *pd)`. -/
def peakdet_reset (pd : peakdet_t) : peakdet_t := { pd with peak := 0 }

/-- Feeding a sequence of samples to `peakdet_process`, oldest first. -/
def peakdet_run (pd : peakdet_t) : List ℕ → peakdet_t
  | [] => pd
  | x :: xs => peakdet_run (peakdet_process pd x).1 xs

/-- `static inline uint8_t map_peak(uint8_t peak)`. -/
def map_peak (peak : ℕ) : ℕ :=
  if peak ≤ 120 then 5
  else if peak ≥ 200 then 127
  else ((((peak - 120) % 65536) * 127) / 120) % 256

/-! ## The DMA channel as seen by `adc_stop_func` -/

/-- What the program can do with the DMA channel in `adc_stop_func`, over an
arbitrary hardware state `D`: read the `transfer_count` register, and abort the
transfer (`dma_channel_abort`).  Nothing is assumed about either. -/
structure DmaChannel (D : Type) where
  transfer_count : D → ℕ
  channel_abort : D → D

/-- `void adc_stop_func(void)` with the DMA state threaded through: the register
is read in the state on entry, then the abort is issued, then the variables are
written. -/
def adc_stop_func_hw {D : Type} (hw : DmaChannel D) (d : D) (s : Sys) :
    (Sys × List Act) × D :=
  let remaining := hw.transfer_count d
  let d1 := hw.channel_abort d
  (adc_stop_func remaining s, d1)

/-- A DMA channel whose state is its remaining count and whose abort clears
that count. -/
def clearing_dma : DmaChannel ℕ :=
  { transfer_count := fun d => d, channel_abort := fun _ => 0 }

/-- An envelope detector state with a small, non-zero envelope. -/
def stalled_pd : peakdet_t := { baseline := 128, envelope := 9, peak := 40 }

/-- The program state after a capture that closed with zero samples. -/
def empty_capture_sys : Sys :=
  { capture_buf := mono_A
    samples_captured := 0
    capture_done := true
    last_edge_time := 5
    adc_gated := true
    high_pulse := false
    test_pin := false }

/-! ## Traces of capture-engine calls -/

/-- Whether a recorded call is one to the capture engine (`adc_start_func` or
`adc_stop_func`). -/
def is_engine_call : Act → Bool
  | Act.start => true
  | Act.stop => true
  | Act.midi _ => false

/-- The first `n` calls of the strict alternation of arm and abort, beginning
with an abort when a capture is in progress (`capturing = true`) and with an arm
otherwise. -/
def alternation : ℕ → Bool → List Act
  | 0, _ => []
  | n + 1, capturing =>
    (if capturing then Act.stop else Act.start) :: alternation n (!capturing)

/-- Whether a capture is in progress after `n` alternating calls. -/
def alternation_end : ℕ → Bool → Bool
  | 0, capturing => capturing
  | n + 1, capturing => alternation_end n (!capturing)

/-! ## Rounding: monotonicity and exactness -/

theorem roundNE_intCast (n : ℤ) : roundNE (n : ℚ) = n := by
  simp [roundNE]

theorem roundNE_cases (q : ℚ) : roundNE q = ⌊q⌋ ∨ roundNE q = ⌊q⌋ + 1 := by
  unfold roundNE
  simp only
  split_ifs <;> simp

theorem roundNE_mono {a b : ℚ} (h : a ≤ b) : roundNE a ≤ roundNE b := by
  have hfl : ⌊a⌋ ≤ ⌊b⌋ := Int.floor_mono h
  rcases lt_or_eq_of_le hfl with hlt | heq
  · rcases roundNE_cases a with ha | ha <;> rcases roundNE_cases b with hb | hb <;> omega
  · unfold roundNE
    simp only
    rw [← heq]
    have hab : a - (⌊a⌋ : ℚ) ≤ b - (⌊a⌋ : ℚ) := by linarith
    split_ifs <;> first | omega | linarith

theorem ilog2_aux_spec (fuel : ℕ) : ∀ n : ℕ, 0 < n → n ≤ fuel →
    2 ^ ilog2_aux fuel n ≤ n ∧ n < 2 ^ (ilog2_aux fuel n + 1) := by
  induction fuel with
  | zero => intro n h0 h1; omega
  | succ f ih =>
    intro n h0 h1
    unfold ilog2_aux
    split_ifs with h2
    · constructor <;> simp <;> omega
    · obtain ⟨a, b⟩ := ih (n / 2) (by omega) (by omega)
      constructor
      · rw [pow_succ]; omega
      · rw [pow_succ]; omega

theorem ilog2_spec {n : ℕ} (h : 0 < n) : 2 ^ ilog2 n ≤ n ∧ n < 2 ^ (ilog2 n + 1) :=
  ilog2_aux_spec n n h le_rfl

theorem expo_spec {q : ℚ} (hq : 0 < q) :
    (2:ℚ) ^ expo q ≤ q ∧ q < (2:ℚ) ^ (expo q + 1) := by
  have hn : 0 < q.num := Rat.num_pos.2 hq
  have hd : 0 < q.den := q.den_pos
  obtain ⟨n, hnn⟩ : ∃ n : ℕ, q.num = n := ⟨q.num.natAbs, by omega⟩
  have hn0 : 0 < n := by omega
  have hqe : q = (n : ℚ) / (q.den : ℚ) := by
    conv_lhs => rw [← Rat.num_div_den q, hnn]
    simp
  have hnat : q.num.natAbs = n := by omega
  unfold expo
  simp only [hnat]
  generalize q.den = d at *
  rw [hqe]
  have hdq : (0:ℚ) < (d : ℚ) := by exact_mod_cast hd
  have hnq : (0:ℚ) < (n : ℚ) := by exact_mod_cast hn0
  split_ifs with hle
  · -- 1 ≤ q
    set m := n / d with hm
    have hm0 : m ≠ 0 := by
      have : 0 < n / d := Nat.div_pos hle hd
      omega
    obtain ⟨h1, h2⟩ := ilog2_spec (Nat.pos_of_ne_zero hm0)
    have h3 : m * d ≤ n := Nat.div_mul_le_self n d
    have h4 : n < (m + 1) * d := (Nat.div_lt_iff_lt_mul hd).1 (Nat.lt_succ_self m)
    constructor
    · rw [zpow_natCast, le_div_iff₀ hdq]
      have : 2 ^ ilog2 m * d ≤ n := le_trans (Nat.mul_le_mul_right d h1) h3
      exact_mod_cast this
    · have e : ((ilog2 m : ℕ) : ℤ) + 1 = ((ilog2 m + 1 : ℕ) : ℤ) := by push_cast; ring
      rw [e, zpow_natCast, div_lt_iff₀ hdq]
      have : n < 2 ^ (ilog2 m + 1) * d :=
        lt_of_lt_of_le h4 (Nat.mul_le_mul_right d (by omega))
      exact_mod_cast this
  · -- q < 1
    push_neg at hle
    set m := (d - 1) / n with hm
    have hm0 : m ≠ 0 := by
      have : 0 < (d - 1) / n := Nat.div_pos (by omega) hn0
      omega
    obtain ⟨h1, h2⟩ := ilog2_spec (Nat.pos_of_ne_zero hm0)
    have h3 : m * n ≤ d - 1 := Nat.div_mul_le_self (d - 1) n
    have h4 : d - 1 < (m + 1) * n := (Nat.div_lt_iff_lt_mul hn0).1 (Nat.lt_succ_self m)
    constructor
    · rw [zpow_neg, zpow_natCast, inv_eq_one_div, div_le_div_iff₀ (by positivity) hdq]
      have : d ≤ n * 2 ^ (ilog2 m + 1) := by
        have : (m + 1) * n ≤ 2 ^ (ilog2 m + 1) * n := Nat.mul_le_mul_right n (by omega)
        have e : n * 2 ^ (ilog2 m + 1) = 2 ^ (ilog2 m + 1) * n := Nat.mul_comm _ _
        omega
      have : (1:ℚ) * d ≤ n * 2 ^ (ilog2 m + 1) := by exact_mod_cast (by simpa using this)
      exact this
    · have e : -((ilog2 m + 1 : ℕ) : ℤ) + 1 = -((ilog2 m : ℕ) : ℤ) := by push_cast; ring
      rw [e, zpow_neg, zpow_natCast, inv_eq_one_div, div_lt_div_iff₀ hdq (by positivity)]
      have : n * 2 ^ ilog2 m < d := by
        have : 2 ^ ilog2 m * n ≤ m * n := Nat.mul_le_mul_right n h1
        have e : n * 2 ^ ilog2 m = 2 ^ ilog2 m * n := Nat.mul_comm _ _
        omega
      have : (n:ℚ) * 2 ^ ilog2 m < 1 * d := by exact_mod_cast (by simpa using this)
      exact this

theorem expo_mono {a b : ℚ} (ha : 0 < a) (hab : a ≤ b) : expo a ≤ expo b := by
  by_contra h
  push_neg at h
  have hb : 0 < b := lt_of_lt_of_le ha hab
  have h1 := (expo_spec hb).2
  have h2 := (expo_spec ha).1
  have h3 : (2:ℚ) ^ (expo b + 1) ≤ (2:ℚ) ^ expo a :=
    zpow_le_zpow_right₀ (by norm_num) (by omega)
  linarith

theorem fround_zero (p : ℕ) : fround p 0 = 0 := by simp [fround]

/-- The unit in the last place used when rounding q to p bits. -/
theorem fround_pos_eq (p : ℕ) {q : ℚ} (hq : 0 < q) :
    fround p q = (roundNE (q / (2:ℚ) ^ (expo q - ((p:ℤ) - 1))) : ℚ) * (2:ℚ) ^ (expo q - ((p:ℤ) - 1)) := by
  simp [fround, hq.ne']

theorem fround_pos_bounds {p : ℕ} (hp : 1 ≤ p) {q : ℚ} (hq : 0 < q) :
    (2:ℚ) ^ expo q ≤ fround p q ∧ fround p q ≤ (2:ℚ) ^ (expo q + 1) := by
  obtain ⟨h1, h2⟩ := expo_spec hq
  rw [fround_pos_eq p hq]
  set u : ℚ := (2:ℚ) ^ (expo q - ((p:ℤ) - 1)) with hu
  have hupos : 0 < u := by positivity
  obtain ⟨k, rfl⟩ : ∃ k : ℕ, p = k + 1 := ⟨p - 1, by omega⟩
  have e1 : (2:ℚ) ^ expo q = ((2 ^ k : ℕ) : ℤ) * u := by
    rw [hu]
    push_cast
    rw [← zpow_natCast, ← zpow_add₀ (by norm_num : (2:ℚ) ≠ 0)]
    congr 1
    ring
  have e2 : (2:ℚ) ^ (expo q + 1) = ((2 ^ (k + 1) : ℕ) : ℤ) * u := by
    rw [hu]
    push_cast
    rw [← zpow_natCast, ← zpow_add₀ (by norm_num : (2:ℚ) ≠ 0)]
    congr 1
    push_cast
    ring
  constructor
  · rw [e1]
    apply mul_le_mul_of_nonneg_right _ hupos.le
    have : (((2 ^ k : ℕ) : ℤ) : ℚ) ≤ q / u := by
      rw [le_div_iff₀ hupos, ← e1]; exact h1
    have := roundNE_mono this
    rw [roundNE_intCast] at this
    exact_mod_cast this
  · rw [e2]
    apply mul_le_mul_of_nonneg_right _ hupos.le
    have : q / u ≤ (((2 ^ (k + 1) : ℕ) : ℤ) : ℚ) := by
      rw [div_le_iff₀ hupos, ← e2]; exact h2.le
    have := roundNE_mono this
    rw [roundNE_intCast] at this
    exact_mod_cast this

theorem fround_nonneg {p : ℕ} (hp : 1 ≤ p) {q : ℚ} (hq : 0 ≤ q) : 0 ≤ fround p q := by
  rcases eq_or_lt_of_le hq with h | h
  · rw [← h, fround_zero]
  · exact le_trans (by positivity) (fround_pos_bounds hp h).1

theorem fround_pos {p : ℕ} (hp : 1 ≤ p) {q : ℚ} (hq : 0 < q) : 0 < fround p q :=
  lt_of_lt_of_le (by positivity) (fround_pos_bounds hp hq).1

/-- Rounding is monotone on the non-negative rationals. -/
theorem fround_mono {p : ℕ} (hp : 1 ≤ p) {a b : ℚ} (ha : 0 ≤ a) (hab : a ≤ b) :
    fround p a ≤ fround p b := by
  rcases eq_or_lt_of_le ha with h | h
  · rw [← h, fround_zero]; exact fround_nonneg hp (le_trans ha hab)
  · have hb : 0 < b := lt_of_lt_of_le h hab
    have hexp : expo a ≤ expo b := expo_mono h hab
    rcases lt_or_eq_of_le hexp with hlt | heq
    · calc fround p a ≤ (2:ℚ) ^ (expo a + 1) := (fround_pos_bounds hp h).2
        _ ≤ (2:ℚ) ^ expo b := zpow_le_zpow_right₀ (by norm_num) (by omega)
        _ ≤ fround p b := (fround_pos_bounds hp hb).1
    · rw [fround_pos_eq p h, fround_pos_eq p hb, heq]
      have hupos : 0 < (2:ℚ) ^ (expo b - ((p:ℤ) - 1)) := by positivity
      apply mul_le_mul_of_nonneg_right _ hupos.le
      have : a / (2:ℚ) ^ (expo b - ((p:ℤ) - 1)) ≤ b / (2:ℚ) ^ (expo b - ((p:ℤ) - 1)) :=
        div_le_div_of_nonneg_right hab hupos.le
      exact_mod_cast roundNE_mono this

/-- A value m * 2^k whose significand m fits in p bits is representable: rounding leaves it unchanged. -/
theorem fround_exact (p : ℕ) (m : ℕ) (k : ℤ) (hm : m < 2 ^ p) :
    fround p ((m : ℚ) * (2:ℚ) ^ k) = (m : ℚ) * (2:ℚ) ^ k := by
  rcases Nat.eq_zero_or_pos m with h0 | hpos
  · simp [h0, fround_zero]
  · have hq : 0 < (m : ℚ) * (2:ℚ) ^ k := by positivity
    obtain ⟨h1, -⟩ := expo_spec hq
    set q := (m : ℚ) * (2:ℚ) ^ k with hqdef
    have hlt : (2:ℚ) ^ expo q < (2:ℚ) ^ ((p:ℤ) + k) := by
      calc (2:ℚ) ^ expo q ≤ q := h1
        _ < (2:ℚ) ^ (p:ℤ) * (2:ℚ) ^ k := by
            rw [hqdef]
            apply mul_lt_mul_of_pos_right _ (by positivity)
            rw [zpow_natCast]
            exact_mod_cast hm
        _ = (2:ℚ) ^ ((p:ℤ) + k) := by rw [zpow_add₀ (by norm_num : (2:ℚ) ≠ 0)]
    have hek : expo q < (p:ℤ) + k := (zpow_lt_zpow_iff_right₀ (by norm_num : (1:ℚ) < 2)).1 hlt
    obtain ⟨j, hj⟩ : ∃ j : ℕ, (j : ℤ) = k - (expo q - ((p:ℤ) - 1)) := ⟨(k - (expo q - ((p:ℤ) - 1))).toNat, by omega⟩
    rw [fround_pos_eq p hq]
    set u : ℚ := (2:ℚ) ^ (expo q - ((p:ℤ) - 1)) with hu
    have hupos : 0 < u := by positivity
    have hdiv : q / u = (((m * 2 ^ j : ℕ) : ℤ) : ℚ) := by
      rw [div_eq_iff hupos.ne', hqdef, hu]
      push_cast
      rw [mul_assoc, ← zpow_natCast, ← zpow_add₀ (by norm_num : (2:ℚ) ≠ 0), hj]
      congr 2
      ring
    rw [hdiv, roundNE_intCast, ← hdiv]
    field_simp

theorem fround_natCast (p : ℕ) (m : ℕ) (hm : m < 2 ^ p) : fround p (m : ℚ) = m := by
  have := fround_exact p m 0 hm
  simpa using this


/-! ## The velocity curve -/

theorem f32_mono {a b : ℚ} (ha : 0 ≤ a) (hab : a ≤ b) : f32 a ≤ f32 b :=
  fround_mono (by norm_num) ha hab

theorem f64_mono {a b : ℚ} (ha : 0 ≤ a) (hab : a ≤ b) : f64 a ≤ f64 b :=
  fround_mono (by norm_num) ha hab

theorem f32_nonneg {a : ℚ} (ha : 0 ≤ a) : 0 ≤ f32 a := fround_nonneg (by norm_num) ha

theorem f64_nonneg {a : ℚ} (ha : 0 ≤ a) : 0 ≤ f64 a := fround_nonneg (by norm_num) ha

theorem remap_expr_mono {a b : ℚ} (ha : 20 ≤ a) (hab : a ≤ b) :
    remap_expr a ≤ remap_expr b := by
  unfold remap_expr
  have h1 : (0:ℚ) ≤ a - 20 := by linarith
  have h2 : f32 (f64 (a - 20)) ≤ f32 (f64 (b - 20)) :=
    f32_mono (f64_nonneg h1) (f64_mono h1 (by linarith))
  have n2 : 0 ≤ f32 (f64 (a - 20)) := f32_nonneg (f64_nonneg h1)
  have h3 : f64 (f32 (f64 (a - 20)) * 116) ≤ f64 (f32 (f64 (b - 20)) * 116) :=
    f64_mono (by positivity) (by linarith)
  have n3 : 0 ≤ f64 (f32 (f64 (a - 20)) * 116) := f64_nonneg (by positivity)
  have h4 : f64 (f64 (f32 (f64 (a - 20)) * 116) / 100)
      ≤ f64 (f64 (f32 (f64 (b - 20)) * 116) / 100) :=
    f64_mono (by positivity) (by linarith)
  have n4 : 0 ≤ f64 (f64 (f32 (f64 (a - 20)) * 116) / 100) := f64_nonneg (by positivity)
  exact f64_mono (by positivity) (by linarith)

theorem remap_expr_at_20 : remap_expr 20 = 1 := by decide!

theorem remap_expr_at_110 : remap_expr 110 ≤ 106 := by decide!

theorem remap_expr_bounds {x : ℚ} (h1 : 20 ≤ x) (h2 : x ≤ 110) :
    1 ≤ remap_expr x ∧ remap_expr x ≤ 106 := by
  constructor
  · rw [← remap_expr_at_20]; exact remap_expr_mono le_rfl h1
  · exact le_trans (remap_expr_mono h1 h2) remap_expr_at_110

theorem to_uint8_eq_floor {d : ℚ} (h0 : 0 ≤ d) (h1 : d < 256) :
    ((to_uint8 d : ℕ) : ℤ) = ⌊d⌋ := by
  have hf0 : 0 ≤ ⌊d⌋ := Int.floor_nonneg.2 h0
  have hf1 : ⌊d⌋ < 256 := Int.floor_lt.2 (by exact_mod_cast h1)
  unfold to_uint8 trunc
  rw [if_pos h0]
  omega

/-- The truncated value of the ramp of `remap` lies in `[1,106]`, so the cast to
`uint8_t` does not wrap. -/
theorem trunc_remap_expr_bounds {x : ℚ} (h1 : 20 ≤ x) (h2 : x ≤ 110) :
    1 ≤ trunc (remap_expr x) ∧ trunc (remap_expr x) ≤ 106
      ∧ ((to_uint8 (remap_expr x) : ℕ) : ℤ) = trunc (remap_expr x) := by
  obtain ⟨hb1, hb2⟩ := remap_expr_bounds h1 h2
  have h0 : (0:ℚ) ≤ remap_expr x := by linarith
  have e : trunc (remap_expr x) = ⌊remap_expr x⌋ := by simp [trunc, h0]
  rw [e, to_uint8_eq_floor h0 (by linarith)]
  refine ⟨Int.le_floor.2 (by exact_mod_cast hb1), ?_, rfl⟩
  have : ⌊remap_expr x⌋ ≤ ⌊(106:ℚ)⌋ := Int.floor_mono hb2
  simpa using this

theorem remap_range (x : ℚ) : 1 ≤ remap x ∧ remap x ≤ 127 := by
  unfold remap
  split_ifs with h1 h2
  · omega
  · omega
  · obtain ⟨a, b, c⟩ := trunc_remap_expr_bounds (le_of_lt (not_le.1 h1)) (le_of_lt (not_le.1 h2))
    omega

theorem remap_mono {a b : ℚ} (hab : a ≤ b) : remap a ≤ remap b := by
  by_cases ha : a ≤ 20
  · have : remap a = 1 := by simp [remap, ha]
    rw [this]; exact (remap_range b).1
  · by_cases hb : b ≥ 110
    · have : remap b = 127 := by
        have : ¬ b ≤ 20 := by linarith
        simp [remap, this, hb]
      rw [this]; exact (remap_range a).2
    · have ha2 : ¬ a ≥ 110 := by
        intro h; exact hb (le_trans h hab)
      have hb1 : ¬ b ≤ 20 := fun h => ha (le_trans hab h)
      simp only [remap, ha, ha2, hb1, hb, if_false]
      push_neg at ha hb ha2 hb1
      obtain ⟨-, -, ca⟩ := trunc_remap_expr_bounds ha.le ha2.le
      obtain ⟨-, -, cb⟩ := trunc_remap_expr_bounds hb1.le hb.le
      obtain ⟨a1, -⟩ := remap_expr_bounds ha.le ha2.le
      have hm := remap_expr_mono ha.le hab
      have ea : trunc (remap_expr a) = ⌊remap_expr a⌋ := by
        simp [trunc, (by linarith : (0:ℚ) ≤ remap_expr a)]
      have eb : trunc (remap_expr b) = ⌊remap_expr b⌋ := by
        simp [trunc, (by linarith : (0:ℚ) ≤ remap_expr b)]
      have := Int.floor_mono hm
      omega

/-! ## The burst analyzer -/

theorem f32_pos {a : ℚ} (ha : 0 < a) : 0 < f32 a := fround_pos (by norm_num) ha

theorem avg_expr_some (sum count : ℕ) :
    ∃ avg, avg_expr sum count = some avg ∧ 0 ≤ avg
      ∧ (0 < count → avg = f32 (f32 sum / f32 count)) ∧ (count = 0 → avg = 0) := by
  unfold avg_expr
  split_ifs with h
  · have hc : 0 < f32 (count:ℚ) := f32_pos (by exact_mod_cast h)
    refine ⟨f32 (f32 sum / f32 count), by simp [fdiv32, hc.ne'], ?_, fun _ => rfl, by omega⟩
    exact f32_nonneg (div_nonneg (f32_nonneg (by positivity)) hc.le)
  · exact ⟨0, rfl, le_rfl, by omega, fun _ => rfl⟩

/-- The analyzer always returns: the only division with a variable divisor is
guarded by `count > 0`.  The result is described field by field. -/
theorem process_samples_eq (buf : Buf) (n : ℕ) :
    ∃ r, process_samples buf n = some r
      ∧ r.reads = (scan buf n).reads ∧ r.sum = (scan buf n).sum
      ∧ r.count = (scan buf n).count ∧ r.peak = (scan buf n).max_sample
      ∧ avg_expr r.sum r.count = some r.avg ∧ 0 ≤ r.avg
      ∧ r.avg_of_all = avg_of_all_expr r.avg r.peak
      ∧ r.vel = remap r.avg_of_all
      ∧ r.acts = (if 2 < r.vel then [Act.midi r.vel] else []) := by
  obtain ⟨avg, h1, h2, -, -⟩ := avg_expr_some (scan buf n).sum (scan buf n).count
  have e : process_samples buf n = some
      { reads := (scan buf n).reads, sum := (scan buf n).sum, count := (scan buf n).count,
        avg := avg, peak := (scan buf n).max_sample,
        avg_of_all := avg_of_all_expr avg (scan buf n).max_sample,
        vel := remap (avg_of_all_expr avg (scan buf n).max_sample),
        acts := if remap (avg_of_all_expr avg (scan buf n).max_sample) > 2
          then [Act.midi (remap (avg_of_all_expr avg (scan buf n).max_sample))] else [] } := by
    simp only [process_samples, h1, Option.map_some']
  exact ⟨_, e, rfl, rfl, rfl, rfl, h1, h2, rfl, rfl, rfl⟩

theorem scan_reads (buf : Buf) (n : ℕ) : (scan buf n).reads = List.range n := by
  induction n with
  | zero => rfl
  | succ k ih =>
    rw [List.range_succ, ← ih]
    simp only [scan, scan_step]
    split_ifs <;> rfl

theorem scan_silent (buf : Buf) (n : ℕ) (h : ∀ i, i < n → (buf i).val ≤ 1) :
    (scan buf n).sum = 0 ∧ (scan buf n).count = 0 ∧ (scan buf n).max_sample = 0 := by
  induction n with
  | zero => exact ⟨rfl, rfl, rfl⟩
  | succ k ih =>
    have hk := ih (fun i hi => h i (by omega))
    have := h k (by omega)
    simp only [scan, scan_step, this, if_true]
    exact hk

theorem avg_of_all_expr_zero : avg_of_all_expr 0 0 = 0 := by decide!

theorem remap_zero : remap 0 = 1 := by decide!

/-! ## Claims on the burst analyzer -/

/-- C2. Velocity range: for every sample memory and every count `n`,
`process_samples` returns and its velocity is an integer in `[1,127]`; on the
ramp (`20 < loudness < 110`) the truncated `double` is itself in `[1,127]`
and equals the velocity, so the cast to `uint8_t` does not wrap. -/
theorem process_samples_velocity_range (buf : Buf) (n : ℕ) :
    ∃ r, process_samples buf n = some r
      ∧ r.avg_of_all = avg_of_all_expr r.avg r.peak
      ∧ r.vel = remap r.avg_of_all
      ∧ 1 ≤ r.vel ∧ r.vel ≤ 127
      ∧ (20 < r.avg_of_all → r.avg_of_all < 110 →
          1 ≤ trunc (remap_expr r.avg_of_all) ∧ trunc (remap_expr r.avg_of_all) ≤ 127
            ∧ (r.vel : ℤ) = trunc (remap_expr r.avg_of_all)) := by
  obtain ⟨r, hr, -, -, -, -, -, -, hall, hvel, -⟩ := process_samples_eq buf n
  refine ⟨r, hr, hall, hvel, ?_, ?_, ?_⟩
  · rw [hvel]; exact (remap_range _).1
  · rw [hvel]; exact (remap_range _).2
  · intro h1 h2
    obtain ⟨a, b, c⟩ := trunc_remap_expr_bounds h1.le h2.le
    refine ⟨a, by omega, ?_⟩
    rw [hvel, ← c]
    simp [remap, not_le.2 h1, not_le.2 h2]

/-- C3. Silence rejection: when none of the first `n` samples exceeds 1 (in
particular when `n = 0`), `process_samples` returns (no division by zero: no
qualifying sample is counted and the average is the constant 0), its velocity is
at most 1, every index it reads is below `n`, and it sends no MIDI note. -/
theorem process_samples_silence (buf : Buf) (n : ℕ) (h : ∀ i, i < n → (buf i).val ≤ 1) :
    ∃ r, process_samples buf n = some r
      ∧ r.vel ≤ 1 ∧ (∀ i ∈ r.reads, i < n) ∧ r.count = 0 ∧ r.avg = 0 ∧ r.acts = [] := by
  obtain ⟨r, hr, hreads, hsum, hcount, hpeak, havg, -, hall, hvel, hacts⟩ :=
    process_samples_eq buf n
  obtain ⟨s0, c0, m0⟩ := scan_silent buf n h
  rw [c0] at hcount
  rw [m0] at hpeak
  have havg0 : r.avg = 0 := by
    rw [hcount] at havg
    simpa [avg_expr] using havg.symm
  have hv : r.vel = 1 := by
    rw [hvel, hall, havg0, hpeak, avg_of_all_expr_zero, remap_zero]
  refine ⟨r, hr, by omega, ?_, hcount, havg0, ?_⟩
  · intro i hi
    rw [hreads, scan_reads] at hi
    exact List.mem_range.1 hi
  · rw [hacts, hv]; rfl

/-- C3, at a concrete input: three noise-level bytes. -/
theorem process_samples_silence_witness :
    ∃ r, process_samples silent_buf 3 = some r
      ∧ r.vel ≤ 1 ∧ (∀ i ∈ r.reads, i < 3) ∧ r.count = 0 ∧ r.avg = 0 ∧ r.acts = [] :=
  process_samples_silence silent_buf 3 (fun _ _ => by simp [silent_buf])

/-- C6. Emission rule: `process_samples` sends a MIDI note if and only if the
computed velocity exceeds 2; what it sends is then exactly one note carrying
that velocity, which lies in `[3,127]`. -/
theorem process_samples_emission (buf : Buf) (n : ℕ) :
    ∃ r, process_samples buf n = some r
      ∧ (2 < r.vel → r.acts = [Act.midi r.vel] ∧ 3 ≤ r.vel ∧ r.vel ≤ 127)
      ∧ (r.vel ≤ 2 → r.acts = [])
      ∧ (r.acts ≠ [] ↔ 2 < r.vel) := by
  obtain ⟨r, hr, -, -, -, -, -, -, -, hvel, hacts⟩ := process_samples_eq buf n
  have hrange : r.vel ≤ 127 := by rw [hvel]; exact (remap_range _).2
  refine ⟨r, hr, ?_, ?_, ?_⟩
  · intro h
    exact ⟨by rw [hacts, if_pos h], h, hrange⟩
  · intro h
    rw [hacts, if_neg (by omega)]
  · rw [hacts]
    split_ifs with h <;> simp [h]

/-! ## Exactness of the ramp of `remap` -/

theorem fround_exact_div (p m j : ℕ) (hm : m < 2 ^ p) :
    fround p ((m : ℚ) / 2 ^ j) = (m : ℚ) / 2 ^ j := by
  have := fround_exact p m (-(j:ℤ)) hm
  rwa [zpow_neg, zpow_natCast, ← div_eq_mul_inv] at this

/-- A positive `float` is a 24-bit significand scaled by its unit in the last place. -/
theorem f32_repr {x : ℚ} (hx : f32 x = x) (h0 : 0 < x) :
    ∃ N : ℕ, N < 2 ^ 24 ∧ x = (N : ℚ) * (2:ℚ) ^ (expo x - 23) := by
  have h := fround_pos_eq 24 h0
  unfold f32 at hx
  rw [hx] at h
  have e23 : expo x - (((24:ℕ):ℤ) - 1) = expo x - 23 := by norm_num
  rw [e23] at h
  set u : ℚ := (2:ℚ) ^ (expo x - 23) with hu
  have hupos : 0 < u := by positivity
  set R : ℤ := roundNE (x / u) with hR
  have hRpos : 0 < R := by
    have : (0:ℚ) < (R:ℚ) * u := by rw [← h]; exact h0
    have : (0:ℚ) < (R:ℚ) := pos_of_mul_pos_left this hupos.le
    exact_mod_cast this
  have hRlt : R < 2 ^ 24 := by
    have h2 := (expo_spec h0).2
    have e : (2:ℚ) ^ (expo x + 1) = (2:ℚ) ^ (24:ℕ) * u := by
      rw [hu, ← zpow_natCast, ← zpow_add₀ (by norm_num : (2:ℚ) ≠ 0)]
      congr 1
      push_cast
      ring
    rw [e] at h2
    have : (R:ℚ) * u < (2:ℚ) ^ (24:ℕ) * u := by rw [← h]; exact h2
    have : (R:ℚ) < (2:ℚ) ^ (24:ℕ) := lt_of_mul_lt_mul_right this hupos.le
    exact_mod_cast this
  refine ⟨R.toNat, by omega, ?_⟩
  have : ((R.toNat : ℕ) : ℚ) = (R : ℚ) := by
    have : ((R.toNat : ℕ) : ℤ) = R := Int.toNat_of_nonneg hRpos.le
    exact_mod_cast this
  rw [this]
  exact h

/-- On a dyadic argument `y = N / 2^j` with a 24-bit numerator and `j ≤ 19`
the `double` ramp of `remap` has the same integer part as the exact value
`1 + y * 116 / 100`. -/
theorem ramp_floor (N j : ℕ) (hN0 : 0 < N) (hN : N < 2 ^ 24) (hj2 : j ≤ 19)
    (hy90 : (N : ℚ) / 2 ^ j < 90) :
    ∃ k : ℕ, 1 ≤ k ∧ k ≤ 105
      ∧ ⌊f64 (1 + f64 (f64 (f32 (f64 ((N : ℚ) / 2 ^ j)) * 116) / 100))⌋ = k
      ∧ 0 ≤ f64 (1 + f64 (f64 (f32 (f64 ((N : ℚ) / 2 ^ j)) * 116) / 100))
      ∧ ⌊1 + (N : ℚ) / 2 ^ j * 116 / 100⌋ = k := by
  have hP : (0:ℚ) < (2:ℚ) ^ j := by positivity
  have e1 : f64 ((N : ℚ) / 2 ^ j) = (N : ℚ) / 2 ^ j :=
    fround_exact_div 53 N j (lt_trans hN (by norm_num))
  have e2 : f32 ((N : ℚ) / 2 ^ j) = (N : ℚ) / 2 ^ j := fround_exact_div 24 N j hN
  have e3 : f64 ((N : ℚ) / 2 ^ j * 116) = (N : ℚ) / 2 ^ j * 116 := by
    have := fround_exact_div 53 (N * 116) j (by norm_num at hN ⊢; omega)
    have e : (((N * 116 : ℕ) : ℚ)) / 2 ^ j = (N : ℚ) / 2 ^ j * 116 := by push_cast; ring
    rw [e] at this
    exact this
  rw [e1, e2, e3]
  set y : ℚ := (N : ℚ) / 2 ^ j with hy
  have hy0 : 0 < y := by positivity
  set t : ℚ := y * 116 / 100 with ht
  have ht0 : 0 < t := by positivity
  -- the exact value as a fraction of naturals
  set D : ℕ := 25 * 2 ^ j with hD
  set V : ℕ := 25 * 2 ^ j + 29 * N with hV
  have hD0 : 0 < D := by positivity
  have hDq : (0:ℚ) < (D : ℚ) := by exact_mod_cast hD0
  have hv : 1 + t = (V : ℚ) / (D : ℚ) := by
    rw [ht, hy, hV, hD]
    push_cast
    field_simp
    ring
  have hDle : D ≤ 2 ^ 24 := by
    have : 2 ^ j ≤ 2 ^ 19 := Nat.pow_le_pow_right (by norm_num) hj2
    rw [hD]
    norm_num at this ⊢
    omega
  set k : ℕ := V / D with hk
  have hk1 : k * D ≤ V := Nat.div_mul_le_self V D
  have hk2 : V < (k + 1) * D := (Nat.div_lt_iff_lt_mul hD0).1 (Nat.lt_succ_self k)
  have hkv : (k : ℚ) ≤ 1 + t := by
    rw [hv, le_div_iff₀ hDq]
    exact_mod_cast hk1
  have hvk : 1 + t ≤ (k : ℚ) + 1 - 1 / (D : ℚ) := by
    rw [hv, div_le_iff₀ hDq]
    have : (V : ℚ) + 1 ≤ ((k : ℚ) + 1) * D := by exact_mod_cast hk2
    have e : ((k : ℚ) + 1 - 1 / (D : ℚ)) * D = ((k : ℚ) + 1) * D - 1 := by
      field_simp
    rw [e]
    linarith
  have hk_ge : 1 ≤ k := by
    have : D ≤ V := by rw [hV, hD]; omega
    exact (Nat.one_le_div_iff hD0).2 this
  have hk_le : k ≤ 105 := by
    have h1 : (k : ℚ) < 106 := by
      have : t < 90 * 116 / 100 := by rw [ht]; linarith
      linarith
    have : k < 106 := by exact_mod_cast h1
    omega
  -- lower bound: k ≤ w
  have hz_lo : ((k - 1 : ℕ) : ℚ) ≤ f64 t := by
    have h1 : ((k - 1 : ℕ) : ℚ) ≤ t := by
      have : ((k - 1 : ℕ) : ℚ) = (k : ℚ) - 1 := by
        rw [Nat.cast_sub hk_ge]; simp
      rw [this]; linarith
    have h2 := f64_mono (by positivity) h1
    have h3 : f64 ((k - 1 : ℕ) : ℚ) = ((k - 1 : ℕ) : ℚ) :=
      fround_natCast 53 (k - 1) (by norm_num; omega)
    rw [h3] at h2
    exact h2
  have hz_lo2 : (k : ℚ) ≤ 1 + f64 t := by
    have : ((k - 1 : ℕ) : ℚ) = (k : ℚ) - 1 := by
      rw [Nat.cast_sub hk_ge]; simp
    rw [this] at hz_lo
    linarith
  have hw_lo : (k : ℚ) ≤ f64 (1 + f64 t) := by
    have h2 := f64_mono (by positivity) hz_lo2
    have h3 : f64 (k : ℚ) = (k : ℚ) := fround_natCast 53 k (by norm_num; omega)
    rw [h3] at h2
    exact h2
  -- upper bound: w < k + 1
  have hq24 : (2:ℚ) ^ 24 = 16777216 := by norm_num
  obtain ⟨m, hm⟩ : ∃ m : ℕ, m + 1 = k * 16777216 := ⟨k * 16777216 - 1, by omega⟩
  obtain ⟨m2, hm2⟩ : ∃ m2 : ℕ, m2 + 1 = (k + 1) * 16777216 := ⟨(k + 1) * 16777216 - 1, by omega⟩
  have hmq : (m : ℚ) + 1 = (k : ℚ) * 16777216 := by exact_mod_cast hm
  have hm2q : (m2 : ℚ) + 1 = ((k : ℚ) + 1) * 16777216 := by exact_mod_cast hm2
  have hg : t ≤ (m : ℚ) / 16777216 := by
    have h1 : (1:ℚ) / 16777216 ≤ 1 / (D : ℚ) := by
      apply one_div_le_one_div_of_le hDq
      exact_mod_cast hDle
    rw [le_div_iff₀ (by norm_num)]
    linarith
  have hz_hi : f64 t ≤ (m : ℚ) / 16777216 := by
    have h2 := f64_mono ht0.le hg
    have h3 := fround_exact_div 53 m 24 (by norm_num; omega)
    rw [hq24] at h3
    unfold f64 at h2
    rw [h3] at h2
    exact h2
  have hw_hi : f64 (1 + f64 t) ≤ (m2 : ℚ) / 16777216 := by
    have h1 : 1 + f64 t ≤ (m2 : ℚ) / 16777216 := by
      rw [le_div_iff₀ (by norm_num)]
      rw [le_div_iff₀ (by norm_num)] at hz_hi
      linarith
    have h2 := f64_mono (by have := f64_nonneg ht0.le; positivity) h1
    have h3 := fround_exact_div 53 m2 24 (by norm_num; omega)
    rw [hq24] at h3
    unfold f64 at h2
    rw [h3] at h2
    exact h2
  have hw_lt : f64 (1 + f64 t) < (k : ℚ) + 1 := by
    rw [le_div_iff₀ (by norm_num)] at hw_hi
    linarith
  refine ⟨k, hk_ge, hk_le, ?_, ?_, ?_⟩
  · rw [Int.floor_eq_iff]
    exact ⟨by exact_mod_cast hw_lo, by exact_mod_cast hw_lt⟩
  · exact le_trans (by positivity) hw_lo
  · rw [Int.floor_eq_iff]
    refine ⟨by exact_mod_cast hkv, ?_⟩
    have : (0:ℚ) < 1 / (D : ℚ) := by positivity
    push_cast
    linarith

/-- C4. Clamp correctness of the velocity curve: for every `float` value `x`
(a rational that rounding to 24 bits leaves unchanged), `remap x = 127` when
`x ≥ 110`, `remap x = 1` when `x ≤ 20`, and for `20 < x < 110` the result is the
integer part of the exact value `1 + (x - 20) * 116 / 100`. -/
theorem remap_clamp (x : ℚ) (hx : f32 x = x) :
    (110 ≤ x → remap x = 127) ∧ (x ≤ 20 → remap x = 1)
      ∧ (20 < x → x < 110 → (remap x : ℤ) = ⌊1 + (x - 20) * 116 / 100⌋) := by
  refine ⟨?_, ?_, ?_⟩
  · intro h
    have : ¬ x ≤ 20 := by linarith
    simp [remap, this, h]
  · intro h
    simp [remap, h]
  · intro h20 h110
    have h0 : 0 < x := by linarith
    obtain ⟨N, hN, hrep⟩ := f32_repr hx h0
    obtain ⟨hlo, hhi⟩ := expo_spec h0
    have he_hi : expo x < 7 := by
      have : (2:ℚ) ^ expo x < (2:ℚ) ^ (7:ℤ) := lt_of_le_of_lt hlo (by norm_num; linarith)
      exact (zpow_lt_zpow_iff_right₀ (by norm_num : (1:ℚ) < 2)).1 this
    have he_lo : 4 < expo x + 1 := by
      have : (2:ℚ) ^ (4:ℤ) < (2:ℚ) ^ (expo x + 1) := lt_trans (by norm_num; linarith) hhi
      exact (zpow_lt_zpow_iff_right₀ (by norm_num : (1:ℚ) < 2)).1 this
    obtain ⟨j, hj⟩ : ∃ j : ℕ, (j : ℤ) = 23 - expo x := ⟨(23 - expo x).toNat, by omega⟩
    have hj2 : j ≤ 19 := by omega
    have hxN : x = (N : ℚ) / 2 ^ j := by
      have e : expo x - 23 = -(j:ℤ) := by omega
      rw [e, zpow_neg, zpow_natCast, ← div_eq_mul_inv] at hrep
      exact hrep
    have hP : (0:ℚ) < (2:ℚ) ^ j := by positivity
    -- the difference x - 20 has the same unit in the last place
    have hK : 20 * 2 ^ j < N := by
      have : (20:ℚ) * 2 ^ j < (N : ℚ) := by
        rw [hxN, lt_div_iff₀ hP] at h20
        exact h20
      exact_mod_cast this
    obtain ⟨M, hM⟩ : ∃ M : ℕ, M + 20 * 2 ^ j = N := ⟨N - 20 * 2 ^ j, by omega⟩
    have hyM : x - 20 = (M : ℚ) / 2 ^ j := by
      have : (M : ℚ) + 20 * 2 ^ j = (N : ℚ) := by exact_mod_cast hM
      rw [hxN, ← this]
      field_simp
      ring
    have hM0 : 0 < M := by omega
    have hM24 : M < 2 ^ 24 := by omega
    obtain ⟨k, hk1, hk2, hfl, hnn, hex⟩ :=
      ramp_floor M j hM0 hM24 hj2 (by rw [← hyM]; linarith)
    rw [← hyM] at hfl hnn hex
    have hw : remap_expr x = f64 (1 + f64 (f64 (f32 (f64 (x - 20)) * 116) / 100)) := rfl
    rw [← hw] at hfl hnn
    have hlt : remap_expr x < 256 := by
      have : remap_expr x < ((k : ℤ) : ℚ) + 1 := (Int.floor_eq_iff.1 hfl).2
      have h2 : ((k : ℤ) : ℚ) ≤ 105 := by exact_mod_cast hk2
      linarith
    have : remap x = to_uint8 (remap_expr x) := by
      simp [remap, not_le.2 h20, not_le.2 h110]
    rw [this, to_uint8_eq_floor hnn hlt, hfl, hex]

/-- C4, at the concrete loudness 60 (a `float`): the velocity is the integer
part of `1 + 40 * 116 / 100 = 47.4`. -/
theorem remap_clamp_witness :
    (110 ≤ (60:ℚ) → remap 60 = 127) ∧ ((60:ℚ) ≤ 20 → remap 60 = 1)
      ∧ ((20:ℚ) < 60 → (60:ℚ) < 110 → (remap 60 : ℤ) = ⌊1 + ((60:ℚ) - 20) * 116 / 100⌋) :=
  remap_clamp 60 (by decide!)

/-! ## Monotonicity of the burst analyzer -/

theorem avg_expr_pos {sum count : ℕ} (h : 0 < count) :
    avg_expr sum count = some (f32 (f32 sum / f32 count)) := by
  have hc : 0 < f32 (count:ℚ) := f32_pos (by exact_mod_cast h)
  simp [avg_expr, h, fdiv32, hc.ne']

theorem avg_expr_zero (sum : ℕ) : avg_expr sum 0 = some 0 := by
  simp [avg_expr]

theorem lit_0_2_nonneg : 0 ≤ lit_0_2 := f64_nonneg (by norm_num)

theorem avg_of_all_expr_mono {a b : ℚ} {p q : ℕ} (ha : 0 ≤ a) (hab : a ≤ b) (hpq : p ≤ q) :
    avg_of_all_expr a p ≤ avg_of_all_expr b q := by
  unfold avg_of_all_expr
  have hl := lit_0_2_nonneg
  have h1 : f64 (a * lit_0_2) ≤ f64 (b * lit_0_2) :=
    f64_mono (by positivity) (mul_le_mul_of_nonneg_right hab hl)
  have n1 : 0 ≤ f64 (a * lit_0_2) := f64_nonneg (by positivity)
  have hpq2 : (p : ℚ) ≤ (q : ℚ) := by exact_mod_cast hpq
  have h2 : f64 (f64 (a * lit_0_2) + p) ≤ f64 (f64 (b * lit_0_2) + q) :=
    f64_mono (by positivity) (by linarith)
  have n2 : 0 ≤ f64 (f64 (a * lit_0_2) + p) := f64_nonneg (by positivity)
  have h3 : f64 (f64 (f64 (a * lit_0_2) + p) / 2) ≤ f64 (f64 (f64 (b * lit_0_2) + q) / 2) :=
    f64_mono (by positivity) (by linarith)
  have n3 : 0 ≤ f64 (f64 (f64 (a * lit_0_2) + p) / 2) := f64_nonneg (by positivity)
  exact f32_mono n3 h3

/-- The loop on two memories with the same qualifying positions and pointwise
ordered qualifying samples: equal counts, ordered sums and peaks, no wrap. -/
theorem scan_le (A B : Buf) (n : ℕ) (hn : 255 * n < 2 ^ 32)
    (h1 : ∀ i, i < n → 1 < (A i).val → (A i).val ≤ (B i).val)
    (h2 : ∀ i, i < n → (A i).val ≤ 1 → (B i).val ≤ 1) :
    (scan A n).count = (scan B n).count ∧ (scan A n).count ≤ n
      ∧ (scan A n).sum ≤ (scan B n).sum ∧ (scan B n).sum ≤ 255 * n
      ∧ (scan A n).max_sample ≤ (scan B n).max_sample := by
  induction n with
  | zero => simp [scan]
  | succ k ih =>
    obtain ⟨c1, c2, c3, c4, c5⟩ :=
      ih (by omega) (fun i hi => h1 i (by omega)) (fun i hi => h2 i (by omega))
    have hA := h1 k (by omega)
    have hB := h2 k (by omega)
    have hb255 : (B k).val ≤ 255 := by have := (B k).isLt; omega
    simp only [scan, scan_step]
    by_cases hq : (A k).val ≤ 1
    · have hq2 := hB hq
      simp only [hq, hq2, if_true]
      exact ⟨c1, by omega, c3, by omega, c5⟩
    · have hq1 : 1 < (A k).val := by omega
      have hq2 : ¬ (B k).val ≤ 1 := by have := hA hq1; omega
      have hle := hA hq1
      simp only [hq, hq2, if_false]
      refine ⟨by rw [c1], ?_, ?_, ?_, ?_⟩
      · have : ((scan A k).count + 1) % 2 ^ 32 ≤ (scan A k).count + 1 := Nat.mod_le _ _
        omega
      · rw [Nat.mod_eq_of_lt (by omega), Nat.mod_eq_of_lt (by omega)]
        omega
      · rw [Nat.mod_eq_of_lt (by omega)]
        omega
      · split_ifs <;> omega

/-- C1 as stated fails: the hit `[100, 0]` is pointwise below `[100, 2]` on its
qualifying samples, yet its velocity is 47 against 41, because the extra faint
sample enters the average of the second memory. -/
theorem process_samples_not_monotone :
    (∀ i, i < 2 → 1 < (mono_A i).val → (mono_A i).val ≤ (mono_B i).val)
      ∧ (process_samples mono_A 2).map (fun r => r.vel) = some 47
      ∧ (process_samples mono_B 2).map (fun r => r.vel) = some 41 := by
  refine ⟨by decide, by decide!, by decide!⟩

/-- C1, amended. Monotonicity of the burst analyzer: for two sample memories and
a length `n` short enough that the 32-bit sum cannot wrap (`255 * n < 2^32`,
which covers every `n ≤ 8192`), if every qualifying sample of `A` is at most the
sample of `B` at the same index and `B` has no qualifying sample where `A` has
none, then the velocity computed for `A` is at most the one computed for `B`. -/
theorem process_samples_monotone (A B : Buf) (n : ℕ) (hn : 255 * n < 2 ^ 32)
    (h1 : ∀ i, i < n → 1 < (A i).val → (A i).val ≤ (B i).val)
    (h2 : ∀ i, i < n → (A i).val ≤ 1 → (B i).val ≤ 1) :
    ∃ rA rB, process_samples A n = some rA ∧ process_samples B n = some rB
      ∧ rA.vel ≤ rB.vel := by
  obtain ⟨rA, hrA, -, sA, cA, pA, aA, nA, lA, vA, -⟩ := process_samples_eq A n
  obtain ⟨rB, hrB, -, sB, cB, pB, aB, nB, lB, vB, -⟩ := process_samples_eq B n
  obtain ⟨c1, c2, c3, c4, c5⟩ := scan_le A B n hn h1 h2
  refine ⟨rA, rB, hrA, hrB, ?_⟩
  rw [vA, vB]
  apply remap_mono
  rw [lA, lB]
  have hpk : rA.peak ≤ rB.peak := by rw [pA, pB]; exact c5
  have hcnt : rA.count = rB.count := by rw [cA, cB]; exact c1
  have hsum : rA.sum ≤ rB.sum := by rw [sA, sB]; exact c3
  apply avg_of_all_expr_mono nA _ hpk
  rcases Nat.eq_zero_or_pos rA.count with h0 | hpos
  · rw [h0, avg_expr_zero] at aA
    rw [← hcnt, h0, avg_expr_zero] at aB
    have e1 : rA.avg = 0 := (Option.some.inj aA).symm
    have e2 : rB.avg = 0 := (Option.some.inj aB).symm
    rw [e1, e2]
  · rw [avg_expr_pos hpos] at aA
    rw [← hcnt, avg_expr_pos hpos] at aB
    have e1 : rA.avg = f32 (f32 rA.sum / f32 rA.count) := (Option.some.inj aA).symm
    have e2 : rB.avg = f32 (f32 rB.sum / f32 rA.count) := (Option.some.inj aB).symm
    rw [e1, e2]
    have hc : 0 < f32 (rA.count : ℚ) := f32_pos (by exact_mod_cast hpos)
    have hs : f32 (rA.sum : ℚ) ≤ f32 (rB.sum : ℚ) :=
      f32_mono (by positivity) (by exact_mod_cast hsum)
    have hs0 : 0 ≤ f32 (rA.sum : ℚ) := f32_nonneg (by positivity)
    exact f32_mono (div_nonneg hs0 hc.le) (div_le_div_of_nonneg_right hs hc.le)

/-- C1 amended, at a concrete input: `[100, 0]` against `[120, 0]`. -/
theorem process_samples_monotone_witness :
    ∃ rA rB, process_samples mono_A 2 = some rA ∧ process_samples mono_C 2 = some rB
      ∧ rA.vel ≤ rB.vel :=
  process_samples_monotone mono_A mono_C 2 (by norm_num) (by decide) (by decide)

/-! ## The end-to-end example -/

theorem scan_alternating (buf : Buf)
    (hb : ∀ i, i < 4096 → (buf i).val = if i % 2 = 0 then 2 else 50) (k : ℕ) :
    2 * k ≤ 4096 → (scan buf (2 * k)).sum = 52 * k ∧ (scan buf (2 * k)).count = 2 * k
      ∧ (scan buf (2 * k)).max_sample = if k = 0 then 0 else 50 := by
  induction k with
  | zero => intro _; simp [scan]
  | succ k ih =>
    intro hk
    obtain ⟨h1, h2, h3⟩ := ih (by omega)
    have e0 : (buf (2 * k)).val = 2 := by
      rw [hb (2 * k) (by omega), if_pos (by omega)]
    have e1 : (buf (2 * k + 1)).val = 50 := by
      rw [hb (2 * k + 1) (by omega), if_neg (by omega)]
    have hm : (scan buf (2 * k)).max_sample ≤ 50 := by
      rw [h3]; split_ifs <;> omega
    have e : 2 * (k + 1) = 2 * k + 1 + 1 := by ring
    rw [e]
    simp only [scan, scan_step, e0, e1, h1, h2]
    refine ⟨?_, ?_, ?_⟩
    · norm_num
      omega
    · norm_num
      omega
    · norm_num
      split_ifs <;> omega

theorem avg_example : avg_expr 106496 4096 = some 26 := by decide!

theorem avg_of_all_example : avg_of_all_expr 26 50 = 14470349 / 524288 := by decide!

theorem f32_27_6 : f32 (138 / 5) = 14470349 / 524288 := by decide!

theorem remap_example : remap (14470349 / 524288) = 9 := by decide!

/-- C5. End-to-end example: with capture depth 8192, `samples_captured = 4096`,
the completion flag set and the first 4096 bytes of the capture memory
alternating 2, 50, 2, 50, ..., `process_samples` computes `avg = 26`,
`peak = 50`, a loudness equal to the `float` nearest to 27.6, and velocity 9;
one run of `adc_task` clears the flag and sends exactly one MIDI note, with
velocity 9. -/
theorem adc_task_example (s : Sys) (hd : s.capture_done = true)
    (hn : s.samples_captured = 4096)
    (hb : ∀ i, i < 4096 → (s.capture_buf i).val = if i % 2 = 0 then 2 else 50) :
    CAPTURE_DEPTH = 8192
      ∧ (∃ r, process_samples s.capture_buf s.samples_captured = some r
          ∧ r.avg = 26 ∧ r.peak = 50 ∧ r.avg_of_all = f32 (138 / 5)
          ∧ |r.avg_of_all - 138 / 5| < 1 / 1000000
          ∧ r.vel = 9 ∧ r.acts = [Act.midi 9])
      ∧ adc_task s = some ({ s with capture_done := false }, [Act.midi 9]) := by
  obtain ⟨r, hr, -, hsum, hcount, hpeak, havg, -, hall, hvel, hacts⟩ :=
    process_samples_eq s.capture_buf s.samples_captured
  rw [hn] at hr hsum hcount hpeak
  obtain ⟨h1, h2, h3⟩ := scan_alternating s.capture_buf hb 2048 (by norm_num)
  norm_num at h1 h2 h3
  rw [h1] at hsum
  rw [h2] at hcount
  rw [h3] at hpeak
  rw [hsum, hcount, avg_example] at havg
  have e1 : r.avg = 26 := (Option.some.inj havg).symm
  have e2 : r.avg_of_all = 14470349 / 524288 := by
    rw [hall, e1, hpeak, avg_of_all_example]
  have e3 : r.vel = 9 := by rw [hvel, e2, remap_example]
  have e4 : r.acts = [Act.midi 9] := by rw [hacts, e3]; rfl
  refine ⟨rfl, ⟨r, by rw [hn]; exact hr, e1, hpeak, by rw [e2, f32_27_6], ?_, e3, e4⟩, ?_⟩
  · rw [e2]; norm_num [abs_lt]
  · simp only [adc_task, hd, if_true, hn, hr, Option.map_some', e4]

/-- C5, at the concrete state `alt_sys`. -/
theorem adc_task_example_witness :
    CAPTURE_DEPTH = 8192
      ∧ (∃ r, process_samples alt_sys.capture_buf alt_sys.samples_captured = some r
          ∧ r.avg = 26 ∧ r.peak = 50 ∧ r.avg_of_all = f32 (138 / 5)
          ∧ |r.avg_of_all - 138 / 5| < 1 / 1000000
          ∧ r.vel = 9 ∧ r.acts = [Act.midi 9])
      ∧ adc_task alt_sys = some ({ alt_sys with capture_done := false }, [Act.midi 9]) :=
  adc_task_example alt_sys rfl rfl (fun i _ => by
    simp only [alt_sys, alt_buf]
    split_ifs <;> rfl)

/-! ## The gate and the dispatcher loop -/

theorem adc_task_spec (s : Sys) :
    ∃ acts, adc_task s = some ({ s with capture_done := false }, acts)
      ∧ ∀ a ∈ acts, ∃ v, a = Act.midi v := by
  unfold adc_task
  split_ifs with h
  · obtain ⟨r, hr, -, -, -, -, -, -, -, -, hacts⟩ :=
      process_samples_eq s.capture_buf s.samples_captured
    refine ⟨r.acts, by simp only [hr, Option.map_some'], ?_⟩
    intro a ha
    rw [hacts] at ha
    split_ifs at ha
    · exact ⟨r.vel, by simpa using ha⟩
    · simp at ha
  · refine ⟨[], ?_, by simp⟩
    have : s.capture_done = false := by simpa using h
    cases s
    simp_all

theorem main_loop_spec (now : ℕ) (s : Sys) :
    ∃ acts, main_loop now s = some (lockout_check now { s with capture_done := false }, acts)
      ∧ ∀ a ∈ acts, ∃ v, a = Act.midi v := by
  obtain ⟨acts, h, hm⟩ := adc_task_spec s
  exact ⟨acts, by simp only [main_loop, h, Option.map_some'], hm⟩

theorem run_cons_some {s s1 s2 : Sys} {e : Event} {es : List Event} {a1 a2 : List Act}
    (h1 : step s e = some (s1, a1)) (h2 : run s1 es = some (s2, a2)) :
    run s (e :: es) = some (s2, a1 ++ a2) := by
  simp only [run, h1, Option.some_bind, h2, Option.map_some']

theorem run_append_some {ys : List Event} {s2 : Sys} {a2 : List Act} :
    ∀ (xs : List Event) {s s1 : Sys} {a1 : List Act}, run s xs = some (s1, a1) →
      run s1 ys = some (s2, a2) → run s (xs ++ ys) = some (s2, a1 ++ a2) := by
  intro xs
  induction xs with
  | nil =>
    intro s s1 a1 h1 h2
    simp only [run, Option.some.injEq, Prod.mk.injEq] at h1
    obtain ⟨rfl, rfl⟩ := h1
    simpa using h2
  | cons e es ih =>
    intro s s1 a1 h1 h2
    simp only [run] at h1
    cases hs : step s e with
    | none => rw [hs] at h1; simp at h1
    | some r1 =>
      rw [hs] at h1
      simp only [Option.some_bind] at h1
      cases hr : run r1.1 es with
      | none => rw [hr] at h1; simp at h1
      | some r2 =>
        rw [hr] at h1
        simp only [Option.map_some', Option.some.injEq, Prod.mk.injEq] at h1
        obtain ⟨e1, e2⟩ := h1
        have h3 : run r1.1 es = some (s1, r2.2) := by rw [hr, ← e1]
        have h4 := ih h3 h2
        have h5 : step s e = some (r1.1, r1.2) := hs
        have := run_cons_some h5 h4
        rw [List.cons_append, this, ← e2, List.append_assoc]

/-- Preservation of a state invariant along a run, with a property of every
call made. -/
theorem run_invariant (P : Sys → Prop) (Q : Act → Prop) (allowed : Event → Prop)
    (hstep : ∀ s e, P s → allowed e →
      ∃ s1 acts, step s e = some (s1, acts) ∧ P s1 ∧ ∀ a ∈ acts, Q a) :
    ∀ (evs : List Event) (s : Sys), P s → (∀ e ∈ evs, allowed e) →
      ∃ s1 acts, run s evs = some (s1, acts) ∧ P s1 ∧ ∀ a ∈ acts, Q a := by
  intro evs
  induction evs with
  | nil =>
    intro s hs _
    exact ⟨s, [], rfl, hs, by simp⟩
  | cons e es ih =>
    intro s hs hall
    obtain ⟨s1, a1, h1, hP1, hQ1⟩ := hstep s e hs (hall e (List.mem_cons_self _ _))
    obtain ⟨s2, a2, h2, hP2, hQ2⟩ :=
      ih s1 hP1 (fun x hx => hall x (List.mem_cons_of_mem _ hx))
    refine ⟨s2, a1 ++ a2, by simp only [run, h1, Option.some_bind, h2, Option.map_some'], hP2, ?_⟩
    intro a ha
    rcases List.mem_append.1 ha with h | h
    · exact hQ1 a h
    · exact hQ2 a h

theorem on_rise_gated (now remaining : ℕ) (s : Sys) (h : s.adc_gated = true) :
    on_rise now remaining s = (s, []) := by
  simp [on_rise, h]

theorem on_rise_idle (now remaining : ℕ) (s : Sys) (h : s.high_pulse = false) :
    on_rise now remaining s = (s, []) := by
  simp [on_rise, h]

theorem on_fall_gated (s : Sys) (h : s.adc_gated = true) : on_fall s = (s, []) := by
  simp [on_fall, h]

theorem on_fall_capturing (s : Sys) (h : s.high_pulse = true) : on_fall s = (s, []) := by
  simp [on_fall, h]

theorem gpio_callback_gated (events now remaining : ℕ) (s : Sys) (h : s.adc_gated = true) :
    gpio_callback events now remaining s = (s, []) := by
  simp only [gpio_callback, on_rise_gated now remaining s h, ite_self, on_fall_gated s h,
    List.append_nil]

theorem gpio_callback_capturing_no_rise (events now remaining : ℕ) (s : Sys)
    (h : s.high_pulse = true) (hr : events &&& GPIO_IRQ_EDGE_RISE = 0) :
    gpio_callback events now remaining s = (s, []) := by
  simp only [gpio_callback, hr, ne_eq, not_true_eq_false, if_false, on_fall_capturing s h,
    ite_self, List.append_nil]

theorem gpio_callback_idle_no_fall (events now remaining : ℕ) (s : Sys)
    (h : s.high_pulse = false) (hf : events &&& GPIO_IRQ_EDGE_FALL = 0) :
    gpio_callback events now remaining s = (s, []) := by
  simp only [gpio_callback, hf, ne_eq, not_true_eq_false, if_false,
    on_rise_idle now remaining s h, ite_self, List.append_nil]

theorem gpio_callback_open (events now remaining : ℕ) (s : Sys)
    (h : s.high_pulse = false) (hg : s.adc_gated = false)
    (hf : events &&& GPIO_IRQ_EDGE_FALL ≠ 0) :
    gpio_callback events now remaining s
      = ({ s with high_pulse := true, test_pin := true }, [Act.start]) := by
  simp only [gpio_callback, on_rise_idle now remaining s h, ite_self, hf, ne_eq,
    not_false_eq_true, if_true, List.nil_append]
  simp [on_fall, adc_start_func, h, hg]

theorem gpio_callback_close (events now remaining : ℕ) (s : Sys)
    (h : s.high_pulse = true) (hg : s.adc_gated = false)
    (hr : events &&& GPIO_IRQ_EDGE_RISE ≠ 0) :
    gpio_callback events now remaining s
      = ({ s with samples_captured := u32_sub CAPTURE_DEPTH remaining, capture_done := true,
                  test_pin := false, adc_gated := true, last_edge_time := now % 2 ^ 32,
                  high_pulse := false }, [Act.stop]) := by
  have e : on_rise now remaining s
      = ({ s with samples_captured := u32_sub CAPTURE_DEPTH remaining, capture_done := true,
                  test_pin := false, adc_gated := true, last_edge_time := now % 2 ^ 32,
                  high_pulse := false }, [Act.stop]) := by
    simp [on_rise, adc_stop_func, h, hg]
  simp only [gpio_callback, hr, ne_eq, not_false_eq_true, if_true, e]
  rw [on_fall_gated _ rfl]
  simp

theorem u32_sub_mod (a b : ℕ) : u32_sub a (b % 2 ^ 32) = u32_sub a b := by
  simp [u32_sub]

theorem lockout_check_not_gated (now : ℕ) (s : Sys) (h : s.adc_gated = false) :
    lockout_check now s = s := by
  simp [lockout_check, h]

theorem lockout_check_within (now : ℕ) (s : Sys) (h : u32_sub now s.last_edge_time ≤ 30) :
    lockout_check now s = s := by
  unfold lockout_check
  split_ifs with h1 h2
  · omega
  · rfl
  · rfl

theorem lockout_check_expired (now : ℕ) (s : Sys) (hg : s.adc_gated = true)
    (h : 30 < u32_sub now s.last_edge_time) :
    lockout_check now s = { s with adc_gated := false } := by
  simp [lockout_check, hg, h]

/-- While Capturing, events other than a close edge neither arm nor abort and
leave the gate Capturing. -/
theorem step_capturing (s : Sys) (e : Event)
    (hs : s.high_pulse = true ∧ s.adc_gated = false)
    (he : ∀ ev now rem, e = Event.edge ev now rem → ev &&& GPIO_IRQ_EDGE_RISE = 0) :
    ∃ s1 acts, step s e = some (s1, acts) ∧ (s1.high_pulse = true ∧ s1.adc_gated = false)
      ∧ ∀ a ∈ acts, a ≠ Act.start ∧ a ≠ Act.stop := by
  cases e with
  | edge ev now rem =>
    refine ⟨s, [], ?_, hs, by simp⟩
    simp only [step, gpio_callback_capturing_no_rise ev now rem s hs.1 (he ev now rem rfl)]
  | loop now =>
    obtain ⟨acts, h, hm⟩ := main_loop_spec now s
    rw [lockout_check_not_gated now { s with capture_done := false } hs.2] at h
    refine ⟨_, acts, h, hs, ?_⟩
    intro a ha
    obtain ⟨v, rfl⟩ := hm a ha
    simp
  | dma buf =>
    exact ⟨_, [], rfl, hs, by simp⟩

/-- During the lockout, as long as no dispatcher iteration sees more than 30 ms
elapsed since the close at `t0`, every event leaves the gate idle and locked. -/
theorem step_locked (t0 : ℕ) (s : Sys) (e : Event)
    (hs : s.high_pulse = false ∧ s.adc_gated = true ∧ s.last_edge_time = t0 % 2 ^ 32)
    (he : ∀ now, e = Event.loop now → u32_sub now t0 ≤ 30) :
    ∃ s1 acts, step s e = some (s1, acts)
      ∧ (s1.high_pulse = false ∧ s1.adc_gated = true ∧ s1.last_edge_time = t0 % 2 ^ 32)
      ∧ ∀ a ∈ acts, a ≠ Act.start ∧ a ≠ Act.stop := by
  cases e with
  | edge ev now rem =>
    refine ⟨s, [], ?_, hs, by simp⟩
    simp only [step, gpio_callback_gated ev now rem s hs.2.1]
  | loop now =>
    obtain ⟨acts, h, hm⟩ := main_loop_spec now s
    have hle : u32_sub now ({ s with capture_done := false } : Sys).last_edge_time ≤ 30 := by
      show u32_sub now s.last_edge_time ≤ 30
      rw [hs.2.2, u32_sub_mod]
      exact he now rfl
    rw [lockout_check_within now { s with capture_done := false } hle] at h
    refine ⟨_, acts, h, hs, ?_⟩
    intro a ha
    obtain ⟨v, rfl⟩ := hm a ha
    simp
  | dma buf =>
    exact ⟨_, [], rfl, hs, by simp⟩

/-- Idle and not locked out: events other than edges keep it so. -/
theorem step_idle (s : Sys) (e : Event)
    (hs : s.high_pulse = false ∧ s.adc_gated = false)
    (he : ∀ ev now rem, e ≠ Event.edge ev now rem) :
    ∃ s1 acts, step s e = some (s1, acts) ∧ (s1.high_pulse = false ∧ s1.adc_gated = false)
      ∧ ∀ a ∈ acts, a ≠ Act.start ∧ a ≠ Act.stop := by
  cases e with
  | edge ev now rem => exact absurd rfl (he ev now rem)
  | loop now =>
    obtain ⟨acts, h, hm⟩ := main_loop_spec now s
    rw [lockout_check_not_gated now { s with capture_done := false } hs.2] at h
    refine ⟨_, acts, h, hs, ?_⟩
    intro a ha
    obtain ⟨v, rfl⟩ := hm a ha
    simp
  | dma buf =>
    exact ⟨_, [], rfl, hs, by simp⟩

/-- The completion flag is only ever set together with the lockout. -/
theorem step_done_gated (s : Sys) (e : Event)
    (hs : s.capture_done = true → s.adc_gated = true) (_he : True) :
    ∃ s1 acts, step s e = some (s1, acts) ∧ (s1.capture_done = true → s1.adc_gated = true)
      ∧ ∀ a ∈ acts, True := by
  cases e with
  | edge ev now rem =>
    refine ⟨(gpio_callback ev now rem s).1, (gpio_callback ev now rem s).2, rfl, ?_,
      fun _ _ => trivial⟩
    cases hg : s.adc_gated with
    | true =>
      rw [gpio_callback_gated ev now rem s hg]
      intro _; exact hg
    | false =>
      cases hp : s.high_pulse with
      | true =>
        by_cases hr : ev &&& GPIO_IRQ_EDGE_RISE = 0
        · rw [gpio_callback_capturing_no_rise ev now rem s hp hr]
          exact fun h => by rw [hs h] at hg; exact absurd hg (by simp)
        · rw [gpio_callback_close ev now rem s hp hg hr]
          intro _; rfl
      | false =>
        by_cases hf : ev &&& GPIO_IRQ_EDGE_FALL = 0
        · rw [gpio_callback_idle_no_fall ev now rem s hp hf]
          exact fun h => by rw [hs h] at hg; exact absurd hg (by simp)
        · rw [gpio_callback_open ev now rem s hp hg hf]
          exact fun h => by rw [hs h] at hg; exact absurd hg (by simp)
  | loop now =>
    obtain ⟨acts, h, -⟩ := main_loop_spec now s
    refine ⟨_, acts, h, ?_, fun _ _ => trivial⟩
    intro hd
    have : (lockout_check now { s with capture_done := false }).capture_done = false := by
      unfold lockout_check
      split_ifs <;> rfl
    rw [this] at hd
    exact absurd hd (by simp)
  | dma buf =>
    exact ⟨_, [], rfl, hs, fun _ _ => trivial⟩

/-! ## Claims on the gate -/

/-- C10. Close while Idle is ignored: in every state with `high_pulse = false`,
locked out or not, a close (rising) edge calls `adc_stop_func` zero times and
changes no variable: gate state, lockout flag and timestamp,
`samples_captured` and `capture_done` are as before. -/
theorem close_while_idle_ignored (s : Sys) (events now remaining : ℕ)
    (h : s.high_pulse = false) (_hr : events &&& GPIO_IRQ_EDGE_RISE ≠ 0)
    (hf : events &&& GPIO_IRQ_EDGE_FALL = 0) :
    gpio_callback events now remaining s = (s, [])
      ∧ on_rise now remaining s = (s, []) :=
  ⟨gpio_callback_idle_no_fall events now remaining s h hf, on_rise_idle now remaining s h⟩

/-- C10, at a concrete input: a rising edge in the idle, locked-out state
`idle_locked_sys`. -/
theorem close_while_idle_ignored_witness :
    gpio_callback 8 50 4000 idle_locked_sys = (idle_locked_sys, [])
      ∧ on_rise 50 4000 idle_locked_sys = (idle_locked_sys, []) :=
  close_while_idle_ignored idle_locked_sys 8 50 4000 rfl (by decide) (by decide)

/-- C9. Debounce of the open edge: from every state that is Idle and not locked
out, an open (falling) edge followed, after any events that are not close
edges, by a second open edge makes exactly one call of `adc_start_func` and no
call of `adc_stop_func`, and the gate is Capturing afterwards. -/
theorem open_edge_debounce (s : Sys) (ev1 now1 rem1 ev2 now2 rem2 : ℕ) (mids : List Event)
    (h : s.high_pulse = false) (hg : s.adc_gated = false)
    (h1 : ev1 &&& GPIO_IRQ_EDGE_FALL ≠ 0)
    (_h2 : ev2 &&& GPIO_IRQ_EDGE_FALL ≠ 0) (h2r : ev2 &&& GPIO_IRQ_EDGE_RISE = 0)
    (hm : ∀ e ∈ mids, ∀ ev now rem, e = Event.edge ev now rem →
      ev &&& GPIO_IRQ_EDGE_RISE = 0) :
    ∃ s1 acts,
      run s (Event.edge ev1 now1 rem1 :: (mids ++ [Event.edge ev2 now2 rem2])) = some (s1, acts)
        ∧ acts.count Act.start = 1 ∧ acts.count Act.stop = 0
        ∧ s1.high_pulse = true ∧ s1.adc_gated = false := by
  have hstep : step s (Event.edge ev1 now1 rem1)
      = some ({ s with high_pulse := true, test_pin := true }, [Act.start]) := by
    simp only [step, gpio_callback_open ev1 now1 rem1 s h hg h1]
  have hall : ∀ e ∈ mids ++ [Event.edge ev2 now2 rem2], ∀ ev now rem,
      e = Event.edge ev now rem → ev &&& GPIO_IRQ_EDGE_RISE = 0 := by
    intro e he ev now rem heq
    rcases List.mem_append.1 he with hmem | hmem
    · exact hm e hmem ev now rem heq
    · rw [List.mem_singleton] at hmem
      rw [hmem] at heq
      injection heq with e1 _ _
      rw [← e1]; exact h2r
  obtain ⟨s1, a1, hrun, hP, hQ⟩ :=
    run_invariant (fun s => s.high_pulse = true ∧ s.adc_gated = false)
      (fun a => a ≠ Act.start ∧ a ≠ Act.stop)
      (fun e => ∀ ev now rem, e = Event.edge ev now rem → ev &&& GPIO_IRQ_EDGE_RISE = 0)
      step_capturing _ { s with high_pulse := true, test_pin := true } ⟨rfl, hg⟩ hall
  refine ⟨s1, [Act.start] ++ a1, run_cons_some hstep hrun, ?_, ?_, hP.1, hP.2⟩
  · have : a1.count Act.start = 0 :=
      List.count_eq_zero.2 (fun hmem => (hQ _ hmem).1 rfl)
    simp [this]
  · have : a1.count Act.stop = 0 :=
      List.count_eq_zero.2 (fun hmem => (hQ _ hmem).2 rfl)
    simp [this]

/-- C9, at a concrete input: from the initial state, a falling edge, one
dispatcher iteration, and a second falling edge. -/
theorem open_edge_debounce_witness :
    ∃ s1 acts,
      run (init silent_buf) (Event.edge 4 0 8192 :: ([Event.loop 1] ++ [Event.edge 4 2 8100]))
          = some (s1, acts)
        ∧ acts.count Act.start = 1 ∧ acts.count Act.stop = 0
        ∧ s1.high_pulse = true ∧ s1.adc_gated = false :=
  open_edge_debounce (init silent_buf) 4 0 8192 4 2 8100 [Event.loop 1] rfl rfl
    (by decide) (by decide) (by decide)
    (fun e he ev now rem heq => by
      rw [List.mem_singleton] at he
      rw [he] at heq
      exact Event.noConfusion heq)

/-- C8. The completion flag is never set twice without an intervening clear:
every run from the initial state, made of edge callbacks, dispatcher iterations
(`adc_task` followed by the lockout check) and DMA stores, returns, and in the
state it reaches `capture_done` implies `adc_gated`; hence any next event that
calls `adc_stop_func` (only `gpio_callback` does, on its entry state, and only
when `adc_gated` is clear) finds `capture_done` false. -/
theorem completion_flag_not_set_twice (buf : Buf) (evs : List Event) :
    ∃ s acts, run (init buf) evs = some (s, acts)
      ∧ (s.capture_done = true → s.adc_gated = true)
      ∧ ∀ e s1 acts1, step s e = some (s1, acts1) → Act.stop ∈ acts1 →
          s.capture_done = false := by
  obtain ⟨s, acts, hrun, hP, -⟩ :=
    run_invariant (fun s => s.capture_done = true → s.adc_gated = true) (fun _ => True)
      (fun _ => True) step_done_gated evs (init buf) (by intro h; exact absurd h (by simp [init]))
      (fun _ _ => trivial)
  refine ⟨s, acts, hrun, hP, ?_⟩
  intro e s1 acts1 hstep hstop
  cases e with
  | edge ev now rem =>
    cases hg : s.adc_gated with
    | true =>
      simp only [step, gpio_callback_gated ev now rem s hg, Option.some.injEq,
        Prod.mk.injEq] at hstep
      rw [← hstep.2] at hstop
      simp at hstop
    | false =>
      cases hd : s.capture_done with
      | false => rfl
      | true => rw [hP hd] at hg; exact absurd hg (by simp)
  | loop now =>
    obtain ⟨a, h, hm⟩ := main_loop_spec now s
    simp only [step, h, Option.some.injEq, Prod.mk.injEq] at hstep
    rw [← hstep.2] at hstop
    obtain ⟨v, hv⟩ := hm _ hstop
    exact Act.noConfusion hv
  | dma b =>
    simp only [step, Option.some.injEq, Prod.mk.injEq] at hstep
    rw [← hstep.2] at hstop
    simp at hstop

/-- C7 as stated fails: from the initial state an open edge at 0 ms arms, the
close edge at 10 ms aborts and starts the lockout, and an open edge at 100 ms,
90 ms after the close, is ignored because no dispatcher iteration has cleared
the lockout in between: the gate stays Idle and locked and `adc_start_func` is
not called a second time. -/
theorem lockout_needs_dispatcher_poll :
    30 < u32_sub 100 10
      ∧ (run (init silent_buf)
            [Event.edge 4 0 8192, Event.edge 8 10 4096, Event.edge 4 100 8192]).map
          (fun r => (r.1.high_pulse, r.1.adc_gated, r.2))
        = some (false, true, [Act.start, Act.stop]) := by
  decide

/-- C7, amended. Lockout: let a close edge at time `t0` end a capture.
(1) After any further events among which no dispatcher iteration sees more than
30 ms elapsed since `t0` (32-bit millisecond clock), the gate is Idle and locked,
`adc_start_func` has not been called, and an open edge is ignored.
(2) Once a dispatcher iteration has run at a time `t1` more than 30 ms after
`t0`, followed by events other than edges, the gate is Idle and unlocked and an
open edge is accepted: `adc_start_func` is called once and the gate becomes
Capturing. -/
theorem lockout_window (s : Sys) (ev0 t0 rem0 : ℕ)
    (hcap : s.high_pulse = true) (hng : s.adc_gated = false)
    (hclose : ev0 &&& GPIO_IRQ_EDGE_RISE ≠ 0)
    (during : List Event) (hduring : ∀ e ∈ during, ∀ now, e = Event.loop now → u32_sub now t0 ≤ 30)
    (t1 : ℕ) (ht1 : 30 < u32_sub t1 t0)
    (polls : List Event) (hpolls : ∀ e ∈ polls, ∀ ev now rem, e ≠ Event.edge ev now rem)
    (ev now rem : ℕ) (hopen : ev &&& GPIO_IRQ_EDGE_FALL ≠ 0) :
    (∃ s1 a1, run s (Event.edge ev0 t0 rem0 :: during) = some (s1, a1)
        ∧ s1.high_pulse = false ∧ s1.adc_gated = true
        ∧ a1.count Act.start = 0 ∧ a1.count Act.stop = 1
        ∧ gpio_callback ev now rem s1 = (s1, []))
      ∧ (∃ s2 a2,
          run s (Event.edge ev0 t0 rem0 :: (during ++ Event.loop t1 :: polls)) = some (s2, a2)
        ∧ s2.high_pulse = false ∧ s2.adc_gated = false
        ∧ a2.count Act.start = 0 ∧ a2.count Act.stop = 1
        ∧ gpio_callback ev now rem s2
            = ({ s2 with high_pulse := true, test_pin := true }, [Act.start])) := by
  -- the close edge
  have hstep : step s (Event.edge ev0 t0 rem0)
      = some ({ s with samples_captured := u32_sub CAPTURE_DEPTH rem0, capture_done := true,
                       test_pin := false, adc_gated := true, last_edge_time := t0 % 2 ^ 32,
                       high_pulse := false }, [Act.stop]) := by
    simp only [step, gpio_callback_close ev0 t0 rem0 s hcap hng hclose]
  -- the lockout phase
  obtain ⟨s1, a1, hrun1, hP1, hQ1⟩ :=
    run_invariant
      (fun s => s.high_pulse = false ∧ s.adc_gated = true ∧ s.last_edge_time = t0 % 2 ^ 32)
      (fun a => a ≠ Act.start ∧ a ≠ Act.stop)
      (fun e => ∀ now, e = Event.loop now → u32_sub now t0 ≤ 30)
      (step_locked t0) during
      { s with samples_captured := u32_sub CAPTURE_DEPTH rem0, capture_done := true,
               test_pin := false, adc_gated := true, last_edge_time := t0 % 2 ^ 32,
               high_pulse := false } ⟨rfl, rfl, rfl⟩ hduring
  have c1 : a1.count Act.start = 0 := List.count_eq_zero.2 (fun hmem => (hQ1 _ hmem).1 rfl)
  have c2 : a1.count Act.stop = 0 := List.count_eq_zero.2 (fun hmem => (hQ1 _ hmem).2 rfl)
  refine ⟨⟨s1, [Act.stop] ++ a1, run_cons_some hstep hrun1, hP1.1, hP1.2.1, by simp [c1],
    by simp [c2], gpio_callback_gated ev now rem s1 hP1.2.1⟩, ?_⟩
  -- the dispatcher iteration that sees the lockout expired
  obtain ⟨a3, hloop, hm3⟩ := main_loop_spec t1 s1
  have hexp : 30 < u32_sub t1 ({ s1 with capture_done := false } : Sys).last_edge_time := by
    show 30 < u32_sub t1 s1.last_edge_time
    rw [hP1.2.2, u32_sub_mod]
    exact ht1
  rw [lockout_check_expired t1 { s1 with capture_done := false } hP1.2.1 hexp] at hloop
  have hstep3 : step s1 (Event.loop t1)
      = some ({ s1 with capture_done := false, adc_gated := false }, a3) := hloop
  -- idle and unlocked until the open edge
  obtain ⟨s2, a4, hrun4, hP4, hQ4⟩ :=
    run_invariant (fun s => s.high_pulse = false ∧ s.adc_gated = false)
      (fun a => a ≠ Act.start ∧ a ≠ Act.stop)
      (fun e => ∀ ev now rem, e ≠ Event.edge ev now rem)
      step_idle polls { s1 with capture_done := false, adc_gated := false } ⟨hP1.1, rfl⟩ hpolls
  have hrun34 := run_cons_some hstep3 hrun4
  have hrun134 := run_append_some during hrun1 hrun34
  have hall := run_cons_some hstep hrun134
  have c3 : a3.count Act.start = 0 :=
    List.count_eq_zero.2 (fun hmem => by obtain ⟨v, hv⟩ := hm3 _ hmem; exact Act.noConfusion hv)
  have c4 : a3.count Act.stop = 0 :=
    List.count_eq_zero.2 (fun hmem => by obtain ⟨v, hv⟩ := hm3 _ hmem; exact Act.noConfusion hv)
  have c5 : a4.count Act.start = 0 := List.count_eq_zero.2 (fun hmem => (hQ4 _ hmem).1 rfl)
  have c6 : a4.count Act.stop = 0 := List.count_eq_zero.2 (fun hmem => (hQ4 _ hmem).2 rfl)
  exact ⟨s2, _, hall, hP4.1, hP4.2, by simp [c1, c3, c5], by simp [c2, c4, c6],
    gpio_callback_open ev now rem s2 hP4.1 hP4.2 hopen⟩

/-- C7 amended, at a concrete input: capture closed at 10 ms; a dispatcher
iteration at 20 ms and an ignored open edge at 25 ms fall into the lockout; the
iteration at 41 ms clears it. -/
theorem lockout_window_witness :
    (∃ s1 a1, run capturing_sys (Event.edge 8 10 4096 :: [Event.loop 20, Event.edge 4 25 8192])
          = some (s1, a1)
        ∧ s1.high_pulse = false ∧ s1.adc_gated = true
        ∧ a1.count Act.start = 0 ∧ a1.count Act.stop = 1
        ∧ gpio_callback 4 30 8192 s1 = (s1, []))
      ∧ (∃ s2 a2,
          run capturing_sys (Event.edge 8 10 4096 ::
              ([Event.loop 20, Event.edge 4 25 8192] ++ Event.loop 41 :: [Event.loop 42]))
            = some (s2, a2)
        ∧ s2.high_pulse = false ∧ s2.adc_gated = false
        ∧ a2.count Act.start = 0 ∧ a2.count Act.stop = 1
        ∧ gpio_callback 4 30 8192 s2
            = ({ s2 with high_pulse := true, test_pin := true }, [Act.start])) :=
  lockout_window capturing_sys 8 10 4096 rfl rfl (by decide)
    [Event.loop 20, Event.edge 4 25 8192]
    (fun e he now heq => by
      simp only [List.mem_cons, List.mem_singleton, List.mem_nil_iff, or_false] at he
      rcases he with h | h
      · rw [h] at heq
        injection heq with e1
        rw [← e1]; decide
      · rw [h] at heq
        exact Event.noConfusion heq)
    41 (by decide)
    [Event.loop 42]
    (fun e he ev now rem heq => by
      rw [List.mem_singleton] at he
      rw [he] at heq
      exact Event.noConfusion heq)
    4 30 8192 (by decide)

/-! ## Claims on the capture engine -/

theorem process_samples_zero (buf : Buf) :
    ∃ r, process_samples buf 0 = some r ∧ r.vel = 1 ∧ r.acts = [] := by
  obtain ⟨r, hr, -, -, hcount, hpeak, havg, -, hall, hvel, hacts⟩ := process_samples_eq buf 0
  have hc : r.count = 0 := hcount
  have hp : r.peak = 0 := hpeak
  have havg0 : r.avg = 0 := by
    rw [hc] at havg
    simpa [avg_expr] using havg.symm
  have hv : r.vel = 1 := by
    rw [hvel, hall, havg0, hp, avg_of_all_expr_zero, remap_zero]
  exact ⟨r, hr, hv, by rw [hacts, hv]; rfl⟩

/-- C11. Empty capture in the dispatcher: for every content of the capture
memory, when `capture_done` is set and `samples_captured = 0`, one call of
`adc_task` clears `capture_done`, changes nothing else and sends no MIDI note;
when `capture_done` is not set, `adc_task` changes nothing and sends nothing. -/
theorem adc_task_empty_capture (s : Sys) :
    (s.capture_done = true → s.samples_captured = 0 →
        adc_task s = some ({ s with capture_done := false }, []))
      ∧ (s.capture_done = false → adc_task s = some (s, [])) := by
  constructor
  · intro hd hn
    obtain ⟨r, hr, -, hacts⟩ := process_samples_zero s.capture_buf
    rw [← hn] at hr
    simp only [adc_task, hd, if_true, hr, Option.map_some', hacts]
  · intro hd
    simp [adc_task, hd]

/-- C11, at a concrete input: a closed capture of zero samples over a memory
that holds a loud byte. -/
theorem adc_task_empty_capture_witness :
    adc_task empty_capture_sys = some ({ empty_capture_sys with capture_done := false }, []) :=
  (adc_task_empty_capture empty_capture_sys).1 rfl rfl

/-! ## Claims on the continuous path -/

theorem map_peak_clamps (p : ℕ) :
    (p ≤ 120 → map_peak p = 5) ∧ (200 ≤ p → map_peak p = 127)
      ∧ (120 < p → p < 200 → map_peak p = (p - 120) * 127 / 120 ∧ map_peak p ≤ 83) := by
  refine ⟨fun h => by simp [map_peak, h], fun h => ?_, fun h1 h2 => ?_⟩
  · have : ¬ p ≤ 120 := by omega
    simp [map_peak, this, h]
  · have e1 : ¬ p ≤ 120 := by omega
    have e2 : ¬ p ≥ 200 := by omega
    simp only [map_peak, e1, e2, if_false]
    rw [Nat.mod_eq_of_lt (by omega : p - 120 < 65536)]
    have ha : (p - 120) * 127 / 120 ≤ 83 := by
      have : (p - 120) * 127 ≤ 79 * 127 := Nat.mul_le_mul_right 127 (by omega)
      omega
    rw [Nat.mod_eq_of_lt (by omega)]
    exact ⟨rfl, ha⟩

/-- C12 fails on the code: the raw peak 121, just above the lower clamp, maps
to 1, below the floor 5 that `map_peak` returns for every peak up to 120 (and
the peaks 122, 123, 124 map to 2, 3, 4); just below the upper clamp the peak
199 maps to 83, far from the ceiling 127 returned from 200 on. -/
theorem map_peak_below_floor :
    map_peak 120 = 5 ∧ map_peak 121 = 1 ∧ map_peak 122 = 2 ∧ map_peak 123 = 3
      ∧ map_peak 124 = 4 ∧ map_peak 199 = 83 ∧ map_peak 200 = 127
      ∧ ¬ (5 ≤ map_peak 121 ∧ map_peak 121 ≤ 127) := by
  decide

/-- The fields written by `peakdet_process`, in exact arithmetic: with 8-bit
inputs none of the stores truncates. -/
theorem peakdet_process_fields (pd : peakdet_t) (sample : ℕ)
    (hb : pd.baseline < 256) (he : pd.envelope < 256) (hs : sample < 256) :
    (peakdet_process pd sample).1.baseline = (pd.baseline * 15 + sample) / 16
      ∧ (peakdet_process pd sample).1.envelope
          = (if ((sample : ℤ) - (((pd.baseline * 15 + sample) / 16 : ℕ) : ℤ)).natAbs > pd.envelope
              then ((sample : ℤ) - (((pd.baseline * 15 + sample) / 16 : ℕ) : ℤ)).natAbs
              else pd.envelope - pd.envelope / 16)
      ∧ (peakdet_process pd sample).1.peak
          = max pd.peak (peakdet_process pd sample).1.envelope
      ∧ (peakdet_process pd sample).2 = (peakdet_process pd sample).1.peak := by
  have hb1 : (pd.baseline * 15 + sample) / 16 < 256 := by omega
  -- the stored baseline
  have eb : ((pd.baseline * 15 + sample) >>> 4) % 256 = (pd.baseline * 15 + sample) / 16 := by
    rw [Nat.shiftRight_eq_div_pow]
    norm_num
    omega
  -- the stored level
  have el : ∀ b1 : ℕ, b1 < 256 →
      ((if to_int16 ((sample : ℤ) - (b1 : ℤ)) < 0
        then to_int16 (-to_int16 ((sample : ℤ) - (b1 : ℤ)))
        else to_int16 ((sample : ℤ) - (b1 : ℤ))) % 256).toNat
        = ((sample : ℤ) - (b1 : ℤ)).natAbs := by
    intro b1 hb1
    have h16 : to_int16 ((sample : ℤ) - (b1 : ℤ)) = (sample : ℤ) - (b1 : ℤ) := by
      unfold to_int16; omega
    rw [h16]
    split_ifs with hneg
    · have : to_int16 (-((sample : ℤ) - (b1 : ℤ))) = -((sample : ℤ) - (b1 : ℤ)) := by
        unfold to_int16; omega
      rw [this]; omega
    · omega
  have ee : (pd.envelope - (pd.envelope >>> 4)) % 256 = pd.envelope - pd.envelope / 16 := by
    rw [Nat.shiftRight_eq_div_pow]
    norm_num
    omega
  simp only [peakdet_process, eb, el _ hb1, ee]
  refine ⟨trivial, trivial, ?_, trivial⟩
  split_ifs with h1 h2 h2
  · rw [max_eq_right (le_of_lt h2)]
  · rw [max_eq_left (by omega)]
  · rw [max_eq_right (le_of_lt h2)]
  · rw [max_eq_left (by omega)]

/-- C13. The envelope step equals its reference definition: for 8-bit state
fields and an 8-bit sample, `peakdet_process` yields
`baseline' = (baseline * 15 + sample) / 16`, `level = |sample - baseline'|`,
`envelope' = level` if `level > envelope` and `envelope - envelope / 16` otherwise,
`peak' = max peak envelope'`, and returns `peak'`; all of them are below 256 (no
store truncates) and `peak' ≥ peak`. -/
theorem peakdet_process_reference (pd : peakdet_t) (sample : ℕ)
    (hb : pd.baseline < 256) (he : pd.envelope < 256) (hp : pd.peak < 256)
    (hs : sample < 256) :
    let b1 : ℕ := (pd.baseline * 15 + sample) / 16
    let level : ℕ := ((sample : ℤ) - (b1 : ℤ)).natAbs
    let e1 : ℕ := if level > pd.envelope then level else pd.envelope - pd.envelope / 16
    let p1 : ℕ := max pd.peak e1
    peakdet_process pd sample = ({ baseline := b1, envelope := e1, peak := p1 }, p1)
      ∧ b1 < 256 ∧ level < 256 ∧ e1 < 256 ∧ p1 < 256 ∧ pd.peak ≤ p1 := by
  intro b1 level e1 p1
  obtain ⟨f1, f2, f3, f4⟩ := peakdet_process_fields pd sample hb he hs
  have hb1 : b1 < 256 := by
    show (pd.baseline * 15 + sample) / 16 < 256
    omega
  have hlevel : level < 256 := by
    show ((sample : ℤ) - (b1 : ℤ)).natAbs < 256
    omega
  have he1 : e1 < 256 := by
    show (if level > pd.envelope then level else pd.envelope - pd.envelope / 16) < 256
    split_ifs <;> omega
  have hp1 : p1 < 256 := max_lt hp he1
  refine ⟨?_, hb1, hlevel, he1, hp1, le_max_left _ _⟩
  have g2 : (peakdet_process pd sample).1.envelope = e1 := f2
  have g3 : (peakdet_process pd sample).1.peak = p1 := by rw [f3, g2]
  have g4 : (peakdet_process pd sample).2 = p1 := by rw [f4, g3]
  cases hres : peakdet_process pd sample with
  | mk st ret =>
    rw [hres] at f1 g2 g3 g4
    cases st with
    | mk b e p =>
      simp only at f1 g2 g3 g4
      rw [f1, g2, g3, g4]

/-- C13, at a concrete input: baseline 128, envelope 9, peak 40, sample 200. -/
theorem peakdet_process_reference_witness :
    let b1 : ℕ := (stalled_pd.baseline * 15 + 200) / 16
    let level : ℕ := (((200 : ℕ) : ℤ) - (b1 : ℤ)).natAbs
    let e1 : ℕ :=
      if level > stalled_pd.envelope then level
      else stalled_pd.envelope - stalled_pd.envelope / 16
    let p1 : ℕ := max stalled_pd.peak e1
    peakdet_process stalled_pd 200 = ({ baseline := b1, envelope := e1, peak := p1 }, p1)
      ∧ b1 < 256 ∧ level < 256 ∧ e1 < 256 ∧ p1 < 256 ∧ stalled_pd.peak ≤ p1 :=
  peakdet_process_reference stalled_pd 200 (by decide) (by decide) (by decide) (by decide)

theorem u32_sub_capture_depth (r : ℕ) (hr : r ≤ 8192) :
    u32_sub CAPTURE_DEPTH r = 8192 - r ∧ u32_sub CAPTURE_DEPTH r ≤ CAPTURE_DEPTH := by
  unfold u32_sub CAPTURE_DEPTH
  omega

/-- C14. Sample count of a closed capture: whatever the DMA hardware does, when
the `transfer_count` register holds `r ≤ 8192` on entry, `adc_stop_func` sets
`samples_captured = 8192 - r`, which is at most the capture depth, sets
`capture_done`, and leaves the DMA channel aborted; the count it uses is the one
read in the entry state, before the abort. -/
theorem adc_stop_func_sample_count {D : Type} (hw : DmaChannel D) (d : D) (s : Sys)
    (hr : hw.transfer_count d ≤ 8192) :
    (adc_stop_func_hw hw d s).1.1.samples_captured = 8192 - hw.transfer_count d
      ∧ (adc_stop_func_hw hw d s).1.1.samples_captured ≤ CAPTURE_DEPTH
      ∧ (adc_stop_func_hw hw d s).1.1.capture_done = true
      ∧ (adc_stop_func_hw hw d s).1.2 = [Act.stop]
      ∧ (adc_stop_func_hw hw d s).2 = hw.channel_abort d
      ∧ (adc_stop_func_hw hw d s).1 = adc_stop_func (hw.transfer_count d) s := by
  obtain ⟨h1, h2⟩ := u32_sub_capture_depth (hw.transfer_count d) hr
  exact ⟨h1, h2, rfl, rfl, rfl, rfl⟩

/-- C14, at a concrete input: a channel whose abort clears the count, holding
5000 remaining transfers; the 3192 samples written are still reported. -/
theorem adc_stop_func_sample_count_witness :
    (adc_stop_func_hw clearing_dma 5000 capturing_sys).1.1.samples_captured
        = 8192 - clearing_dma.transfer_count 5000
      ∧ (adc_stop_func_hw clearing_dma 5000 capturing_sys).1.1.samples_captured ≤ CAPTURE_DEPTH
      ∧ (adc_stop_func_hw clearing_dma 5000 capturing_sys).1.1.capture_done = true
      ∧ (adc_stop_func_hw clearing_dma 5000 capturing_sys).1.2 = [Act.stop]
      ∧ (adc_stop_func_hw clearing_dma 5000 capturing_sys).2 = clearing_dma.channel_abort 5000
      ∧ (adc_stop_func_hw clearing_dma 5000 capturing_sys).1
          = adc_stop_func (clearing_dma.transfer_count 5000) capturing_sys :=
  adc_stop_func_sample_count clearing_dma 5000 capturing_sys (by decide)

/-- C15 as stated fails: called in the initial state with the transfer engine
still holding its full count 8192, `adc_stop_func` reports zero samples but also
sets the completion flag, which was clear, and does issue the abort. -/
theorem adc_stop_func_unarmed_sets_flag :
    (init silent_buf).capture_done = false
      ∧ (adc_stop_func 8192 (init silent_buf)).1.samples_captured = 0
      ∧ (adc_stop_func 8192 (init silent_buf)).1.capture_done = true
      ∧ (adc_stop_func 8192 (init silent_buf)).2 = [Act.stop] := by
  decide

/-- C15, amended. `adc_stop_func` without an armed transfer: when the transfer
engine still holds its full count `CAPTURE_DEPTH = 8192`, the call sets
`samples_captured` to 0 and `capture_done` to true, and changes no other
variable. -/
theorem adc_stop_func_unarmed (s : Sys) :
    adc_stop_func CAPTURE_DEPTH s
        = ({ s with samples_captured := 0, capture_done := true }, [Act.stop])
      ∧ CAPTURE_DEPTH = 8192 := by
  have : u32_sub CAPTURE_DEPTH CAPTURE_DEPTH = 0 := by decide
  refine ⟨?_, rfl⟩
  simp only [adc_stop_func, this]

/-- The decay branch of the envelope follower, on an 8-bit envelope. -/
theorem envelope_decay (e : ℕ) :
    (0 < e → e ≤ 15 → e - e / 16 = e) ∧ (16 ≤ e → e - e / 16 < e)
      ∧ (0 < e → 0 < e - e / 16) := by
  refine ⟨?_, ?_, ?_⟩ <;> intros <;> omega

theorem peakdet_process_bounds (pd : peakdet_t) (sample : ℕ)
    (hb : pd.baseline < 256) (he : pd.envelope < 256) (hs : sample < 256) :
    (peakdet_process pd sample).1.baseline < 256
      ∧ (peakdet_process pd sample).1.envelope < 256
      ∧ (0 < pd.envelope → 0 < (peakdet_process pd sample).1.envelope) := by
  obtain ⟨f1, f2, -, -⟩ := peakdet_process_fields pd sample hb he hs
  rw [f1, f2]
  refine ⟨by omega, ?_, ?_⟩
  · split_ifs <;> omega
  · intro h0
    split_ifs <;> omega

/-- C19. Envelope decay stalls below 16: for 8-bit state and sample, with
`level = |sample - baseline'|` not above the envelope (the decay branch), an
envelope in `[1,15]` is left unchanged and an envelope of 16 or more strictly
decreases; and over any sequence of samples a non-zero envelope never becomes 0. -/
theorem envelope_decay_stalls (pd : peakdet_t) (sample : ℕ) (rest : List ℕ)
    (hb : pd.baseline < 256) (he : pd.envelope < 256) (hs : sample < 256)
    (hrest : ∀ x ∈ rest, x < 256)
    (hlevel : ((sample : ℤ) - (((pd.baseline * 15 + sample) / 16 : ℕ) : ℤ)).natAbs
      ≤ pd.envelope) :
    (peakdet_process pd sample).1.envelope = pd.envelope - pd.envelope / 16
      ∧ (0 < pd.envelope → pd.envelope ≤ 15 →
          (peakdet_process pd sample).1.envelope = pd.envelope)
      ∧ (16 ≤ pd.envelope → (peakdet_process pd sample).1.envelope < pd.envelope)
      ∧ (0 < pd.envelope → 0 < (peakdet_run pd (sample :: rest)).envelope) := by
  obtain ⟨-, f2, -, -⟩ := peakdet_process_fields pd sample hb he hs
  rw [if_neg (by omega)] at f2
  obtain ⟨d1, d2, d3⟩ := envelope_decay pd.envelope
  refine ⟨f2, fun h1 h2 => by rw [f2]; exact d1 h1 h2, fun h => by rw [f2]; exact d2 h, ?_⟩
  intro h0
  have key : ∀ (xs : List ℕ) (q : peakdet_t), q.baseline < 256 → q.envelope < 256 →
      (∀ x ∈ xs, x < 256) → 0 < q.envelope → 0 < (peakdet_run q xs).envelope := by
    intro xs
    induction xs with
    | nil => intro q _ _ _ h; exact h
    | cons x xs ih =>
      intro q hqb hqe hx h
      obtain ⟨b1, b2, b3⟩ :=
        peakdet_process_bounds q x hqb hqe (hx x (List.mem_cons_self _ _))
      exact ih _ b1 b2 (fun y hy => hx y (List.mem_cons_of_mem _ hy)) (b3 h)
  exact key (sample :: rest) pd hb he
    (fun x hx => by
      rcases List.mem_cons.1 hx with h | h
      · rw [h]; exact hs
      · exact hrest x h) h0

/-- C19, at a concrete input: envelope 9, baseline 128, samples 130, 128, 127. -/
theorem envelope_decay_stalls_witness :
    (peakdet_process stalled_pd 130).1.envelope
        = stalled_pd.envelope - stalled_pd.envelope / 16
      ∧ (0 < stalled_pd.envelope → stalled_pd.envelope ≤ 15 →
          (peakdet_process stalled_pd 130).1.envelope = stalled_pd.envelope)
      ∧ (16 ≤ stalled_pd.envelope →
          (peakdet_process stalled_pd 130).1.envelope < stalled_pd.envelope)
      ∧ (0 < stalled_pd.envelope →
          0 < (peakdet_run stalled_pd (130 :: [128, 127])).envelope) :=
  envelope_decay_stalls stalled_pd 130 [128, 127] (by decide) (by decide) (by decide)
    (by decide) (by decide)

/-! ## Invariants of the gate -/

theorem lockout_check_fields (now : ℕ) (s : Sys) :
    (lockout_check now s).high_pulse = s.high_pulse
      ∧ ((lockout_check now s).adc_gated = true → s.adc_gated = true) := by
  unfold lockout_check
  split_ifs with h1 h2
  · exact ⟨rfl, fun _ => h1⟩
  · exact ⟨rfl, fun h => h⟩
  · exact ⟨rfl, fun h => h⟩

/-- Capturing and lockout exclude each other, step by step. -/
theorem step_exclusive (s : Sys) (e : Event)
    (hs : ¬ (s.high_pulse = true ∧ s.adc_gated = true)) (_he : True) :
    ∃ s1 acts, step s e = some (s1, acts) ∧ ¬ (s1.high_pulse = true ∧ s1.adc_gated = true)
      ∧ ∀ a ∈ acts, True := by
  cases e with
  | edge ev now rem =>
    refine ⟨(gpio_callback ev now rem s).1, (gpio_callback ev now rem s).2, rfl, ?_,
      fun _ _ => trivial⟩
    cases hg : s.adc_gated with
    | true =>
      rw [gpio_callback_gated ev now rem s hg]
      exact hs
    | false =>
      cases hp : s.high_pulse with
      | true =>
        by_cases hr : ev &&& GPIO_IRQ_EDGE_RISE = 0
        · rw [gpio_callback_capturing_no_rise ev now rem s hp hr]
          exact hs
        · rw [gpio_callback_close ev now rem s hp hg hr]
          simp
      | false =>
        by_cases hf : ev &&& GPIO_IRQ_EDGE_FALL = 0
        · rw [gpio_callback_idle_no_fall ev now rem s hp hf]
          exact hs
        · rw [gpio_callback_open ev now rem s hp hg hf]
          simp [hg]
  | loop now =>
    obtain ⟨acts, h, -⟩ := main_loop_spec now s
    refine ⟨_, acts, h, ?_, fun _ _ => trivial⟩
    obtain ⟨f1, f2⟩ := lockout_check_fields now { s with capture_done := false }
    intro hc
    exact hs ⟨by rw [← f1]; exact hc.1, f2 hc.2⟩
  | dma buf =>
    exact ⟨_, [], rfl, hs, fun _ _ => trivial⟩

/-- C16. Capturing and lockout are mutually exclusive: every run from the
initial state (edge callbacks with any event bitmask, dispatcher iterations,
DMA stores) returns, and in the state it reaches `high_pulse` and `adc_gated`
are not both true; hence, when that state is Capturing, a close edge (any
bitmask with the rise bit) calls `adc_stop_func` and leaves the gate Idle. -/
theorem capturing_excludes_lockout (buf : Buf) (evs : List Event) :
    ∃ s acts, run (init buf) evs = some (s, acts)
      ∧ ¬ (s.high_pulse = true ∧ s.adc_gated = true)
      ∧ (s.high_pulse = true → ∀ ev now rem, ev &&& GPIO_IRQ_EDGE_RISE ≠ 0 →
          (gpio_callback ev now rem s).2 = [Act.stop]
            ∧ (gpio_callback ev now rem s).1.high_pulse = false
            ∧ (gpio_callback ev now rem s).1.capture_done = true) := by
  obtain ⟨s, acts, hrun, hP, -⟩ :=
    run_invariant (fun s => ¬ (s.high_pulse = true ∧ s.adc_gated = true)) (fun _ => True)
      (fun _ => True) step_exclusive evs (init buf) (by simp [init]) (fun _ _ => trivial)
  refine ⟨s, acts, hrun, hP, ?_⟩
  intro hp ev now rem hr
  have hg : s.adc_gated = false := by
    cases h : s.adc_gated with
    | false => rfl
    | true => exact absurd ⟨hp, h⟩ hP
  rw [gpio_callback_close ev now rem s hp hg hr]
  exact ⟨rfl, rfl, rfl⟩

theorem filter_engine_of_midi (acts : List Act) (h : ∀ a ∈ acts, ∃ v, a = Act.midi v) :
    acts.filter is_engine_call = [] := by
  rw [List.filter_eq_nil_iff]
  intro a ha
  obtain ⟨v, rfl⟩ := h a ha
  simp [is_engine_call]

/-- One event makes no capture-engine call and keeps the gate state, or makes
exactly the call that the gate state asks for and flips it. -/
theorem step_alternates (s : Sys) (e : Event) :
    ∃ s1 acts, step s e = some (s1, acts)
      ∧ ((acts.filter is_engine_call = [] ∧ s1.high_pulse = s.high_pulse)
        ∨ (acts.filter is_engine_call = [if s.high_pulse then Act.stop else Act.start]
            ∧ s1.high_pulse = !s.high_pulse)) := by
  cases e with
  | edge ev now rem =>
    refine ⟨(gpio_callback ev now rem s).1, (gpio_callback ev now rem s).2, rfl, ?_⟩
    cases hg : s.adc_gated with
    | true =>
      rw [gpio_callback_gated ev now rem s hg]
      exact Or.inl ⟨rfl, rfl⟩
    | false =>
      cases hp : s.high_pulse with
      | true =>
        by_cases hr : ev &&& GPIO_IRQ_EDGE_RISE = 0
        · rw [gpio_callback_capturing_no_rise ev now rem s hp hr]
          exact Or.inl ⟨rfl, hp⟩
        · rw [gpio_callback_close ev now rem s hp hg hr]
          exact Or.inr ⟨rfl, rfl⟩
      | false =>
        by_cases hf : ev &&& GPIO_IRQ_EDGE_FALL = 0
        · rw [gpio_callback_idle_no_fall ev now rem s hp hf]
          exact Or.inl ⟨rfl, hp⟩
        · rw [gpio_callback_open ev now rem s hp hg hf]
          exact Or.inr ⟨rfl, rfl⟩
  | loop now =>
    obtain ⟨acts, h, hm⟩ := main_loop_spec now s
    refine ⟨_, acts, h, Or.inl ⟨filter_engine_of_midi acts hm, ?_⟩⟩
    exact (lockout_check_fields now { s with capture_done := false }).1
  | dma buf =>
    exact ⟨_, [], rfl, Or.inl ⟨rfl, rfl⟩⟩

theorem run_alternates : ∀ (evs : List Event) (s : Sys),
    ∃ s1 acts n, run s evs = some (s1, acts)
      ∧ acts.filter is_engine_call = alternation n s.high_pulse
      ∧ s1.high_pulse = alternation_end n s.high_pulse := by
  intro evs
  induction evs with
  | nil =>
    intro s
    exact ⟨s, [], 0, rfl, rfl, rfl⟩
  | cons e es ih =>
    intro s
    obtain ⟨s1, a1, h1, hcase⟩ := step_alternates s e
    obtain ⟨s2, a2, n, h2, hf, hend⟩ := ih s1
    rcases hcase with ⟨hnil, hsame⟩ | ⟨hone, hflip⟩
    · refine ⟨s2, a1 ++ a2, n, run_cons_some h1 h2, ?_, ?_⟩
      · rw [List.filter_append, hnil, hf, hsame, List.nil_append]
      · rw [hend, hsame]
    · refine ⟨s2, a1 ++ a2, n + 1, run_cons_some h1 h2, ?_, ?_⟩
      · rw [List.filter_append, hone, hf, hflip]
        rfl
      · rw [hend, hflip]
        rfl

theorem alternation_counts : ∀ (n : ℕ) (c : Bool),
    (alternation n c).count Act.start + (if c then 1 else 0)
      = (alternation n c).count Act.stop + (if alternation_end n c then 1 else 0) := by
  intro n
  induction n with
  | zero => intro c; simp [alternation, alternation_end]
  | succ k ih =>
    intro c
    have := ih (!c)
    cases c <;> simp [alternation, alternation_end] at this ⊢ <;> omega

theorem count_filter_engine (acts : List Act) :
    (acts.filter is_engine_call).count Act.start = acts.count Act.start
      ∧ (acts.filter is_engine_call).count Act.stop = acts.count Act.stop :=
  ⟨List.count_filter (by rfl), List.count_filter (by rfl)⟩

/-- C17. Arm and abort calls alternate: for every sequence of events from the
initial state and every point `k` of it, the run of the first `k` events returns,
its capture-engine calls, in order, are the first `n` calls of
`start, stop, start, stop, ...` for some `n`, and the number of `adc_start_func`
calls exceeds the number of `adc_stop_func` calls by 0 when the gate is Idle and
by 1 when it is Capturing. -/
theorem arm_abort_alternate (buf : Buf) (evs : List Event) (k : ℕ) :
    ∃ s acts n, run (init buf) (evs.take k) = some (s, acts)
      ∧ acts.filter is_engine_call = alternation n false
      ∧ acts.count Act.start = acts.count Act.stop + (if s.high_pulse then 1 else 0) := by
  obtain ⟨s, acts, n, hrun, hf, hend⟩ := run_alternates (evs.take k) (init buf)
  refine ⟨s, acts, n, hrun, hf, ?_⟩
  have hc := alternation_counts n false
  obtain ⟨c1, c2⟩ := count_filter_engine acts
  have hinit : (init buf).high_pulse = false := rfl
  rw [hinit] at hf hend
  rw [← hf, c1, c2, ← hend] at hc
  simpa using hc

/-! ## Bounds of the reduction and the gap of the curve -/

theorem scan_bounds (buf : Buf) (n : ℕ) (hn : 255 * n < 2 ^ 32) :
    (scan buf n).sum ≤ 255 * n ∧ (scan buf n).count ≤ n := by
  obtain ⟨-, c2, -, c4, -⟩ := scan_le buf buf n hn (fun _ _ _ => le_rfl) (fun _ _ h => h)
  exact ⟨c4, c2⟩

/-- C18. In-bounds and overflow-free reduction: for every count
`n ≤ CAPTURE_DEPTH = 8192`, `process_samples` returns, every index it reads is
below 8192, the sum is at most `255 * n`, the counter is at most `n`, and in no
iteration does the 32-bit addition to the sum or to the counter wrap; a count
`8192 - remaining` with `remaining ≤ 8192` is such an `n`. -/
theorem process_samples_in_bounds (buf : Buf) (n : ℕ) (hn : n ≤ CAPTURE_DEPTH) :
    ∃ r, process_samples buf n = some r
      ∧ (∀ i ∈ r.reads, i < 8192)
      ∧ r.sum ≤ 255 * n ∧ r.sum < 2 ^ 32 ∧ r.count ≤ n
      ∧ (∀ i, i < n → (scan buf i).sum + (buf i).val < 2 ^ 32
          ∧ (scan buf i).count + 1 < 2 ^ 32)
      ∧ (∀ remaining, remaining ≤ 8192 →
          u32_sub CAPTURE_DEPTH remaining = 8192 - remaining
            ∧ u32_sub CAPTURE_DEPTH remaining ≤ CAPTURE_DEPTH) := by
  have hn2 : n ≤ 8192 := hn
  obtain ⟨r, hr, hreads, hsum, hcount, -⟩ := process_samples_eq buf n
  obtain ⟨b1, b2⟩ := scan_bounds buf n (by omega)
  refine ⟨r, hr, ?_, by rw [hsum]; exact b1, by rw [hsum]; omega, by rw [hcount]; exact b2,
    ?_, fun rem h => u32_sub_capture_depth rem h⟩
  · intro i hi
    rw [hreads, scan_reads] at hi
    have := List.mem_range.1 hi
    omega
  · intro i hi
    obtain ⟨c1, c2⟩ := scan_bounds buf i (by omega)
    have : (buf i).val < 256 := (buf i).isLt
    constructor <;> omega

/-- C18, at a concrete input: 4096 samples of the alternating memory. -/
theorem process_samples_in_bounds_witness :
    ∃ r, process_samples alt_buf 4096 = some r
      ∧ (∀ i ∈ r.reads, i < 8192)
      ∧ r.sum ≤ 255 * 4096 ∧ r.sum < 2 ^ 32 ∧ r.count ≤ 4096
      ∧ (∀ i, i < 4096 → (scan alt_buf i).sum + (alt_buf i).val < 2 ^ 32
          ∧ (scan alt_buf i).count + 1 < 2 ^ 32)
      ∧ (∀ remaining, remaining ≤ 8192 →
          u32_sub CAPTURE_DEPTH remaining = 8192 - remaining
            ∧ u32_sub CAPTURE_DEPTH remaining ≤ CAPTURE_DEPTH) :=
  process_samples_in_bounds alt_buf 4096 (by decide)

theorem remap_expr_110_lt : remap_expr 110 < 106 := by decide!

/-- C20. Gap in the velocity curve: for every loudness `x`, `remap x` is 127
or lies in `[1,105]`, so no loudness maps into `[106,126]`: on `20 < x < 110` the
exact ramp `1 + (x - 20) * 116 / 100` is below 105.4, the computed ramp is below
106 and truncates to at most 105, and at `x = 110` the result is 127. -/
theorem remap_gap (x : ℚ) :
    (remap x = 127 ∨ (1 ≤ remap x ∧ remap x ≤ 105))
      ∧ (∀ v, 106 ≤ v → v ≤ 126 → remap x ≠ v)
      ∧ (20 < x → x < 110 →
          1 + (x - 20) * 116 / 100 < 527 / 5 ∧ remap_expr x < 106 ∧ remap x ≤ 105)
      ∧ remap 110 = 127 := by
  have hramp : 20 < x → x < 110 → remap_expr x < 106 ∧ 1 ≤ remap x ∧ remap x ≤ 105 := by
    intro h1 h2
    have hlt : remap_expr x < 106 :=
      lt_of_le_of_lt (remap_expr_mono h1.le h2.le) remap_expr_110_lt
    obtain ⟨a, -, c⟩ := trunc_remap_expr_bounds h1.le h2.le
    have h0 : (0:ℚ) ≤ remap_expr x := by
      have := (remap_expr_bounds h1.le h2.le).1
      linarith
    have e : trunc (remap_expr x) = ⌊remap_expr x⌋ := by simp [trunc, h0]
    have hfl : ⌊remap_expr x⌋ < 106 := Int.floor_lt.2 (by exact_mod_cast hlt)
    have hr : remap x = to_uint8 (remap_expr x) := by
      simp [remap, not_le.2 h1, not_le.2 h2]
    rw [hr]
    refine ⟨hlt, ?_, ?_⟩ <;> omega
  have hmain : remap x = 127 ∨ (1 ≤ remap x ∧ remap x ≤ 105) := by
    by_cases h1 : x ≤ 20
    · right
      simp [remap, h1]
    · by_cases h2 : x ≥ 110
      · left
        simp [remap, h1, h2]
      · right
        exact (hramp (not_le.1 h1) (not_le.1 h2)).2
  refine ⟨hmain, ?_, ?_, ?_⟩
  · intro v hv1 hv2 heq
    rcases hmain with h | h <;> omega
  · intro h1 h2
    obtain ⟨a, -, c⟩ := hramp h1 h2
    exact ⟨by linarith, a, c⟩
  · have : ¬ (110:ℚ) ≤ 20 := by norm_num
    simp [remap, this]

end PicoDrum
